import Mathlib

/-!
PipeFabric aggregation functions and related-value trackers.

A shallow embedding of

* `qop/aggr_functions/AggrCount.hpp`      (`AggrCount<Tin, Tres>`),
* `qop/aggr_functions/AggrGlobalMax.hpp`  (`AggrGlobalMax<Tin>` and its `std::string` specialisation),
* `cep/relatedvalue/RelatedStateValueMax.hpp`, `cep/relatedvalue/RelatedStateValueMin.hpp`,
* `net/RabbitMQSource.cpp`                (`RabbitMQSource::start`, `produceTuple`),
* the lambdas of the grouping, stateful-map and partitioning tests of
  `test/TopologyTest.cpp`, with the operators they run on modelled from the specification.

Every member function is a function on the object state.  A member function that
returns something returns the pair (result, state afterwards), so that "the call
leaves the object unchanged" is a statement that can be proved or refuted.
-/

namespace pfabric

/-! ## C++ arithmetic used by the classes -/

/-- The C++ type `unsigned int`: 32 bits wide, values `0 .. 2^32 - 1`. -/
abbrev UnsignedInt : Type := Fin 4294967296

/-- Conversion of a (mathematical) integer to `unsigned int`: reduction modulo `2^32`.
It is what `mCount += x` does with the sum of `mCount` and the `int` operand `x`. -/
def toUnsigned (i : Int) : UnsignedInt :=
  ⟨(i % 4294967296).toNat, by omega⟩

/-- Conversion `unsigned int → Tres` for a result type that holds every `unsigned int`
value (`unsigned int`, `long`, `unsigned long`, `double`): the value is preserved. -/
def convWide (c : UnsignedInt) : Int :=
  (c.val : Int)

/-- Conversion `unsigned int → int` (32 bits, twos-complement representation): the value modulo `2^32`
that lies in `-2^31 .. 2^31 - 1`. -/
def convInt (c : UnsignedInt) : Int :=
  if c.val < 2147483648 then (c.val : Int) else (c.val : Int) - 4294967296

/-- The function `std::max(a, b)`, which is `(a < b) ? b : a`. -/
def stdMax {T : Type} [LT T] [DecidableRel (fun a b : T => a < b)] (a b : T) : T :=
  if a < b then b else a

/-! ## AggrCount -/

/-- State of an `AggrCount<Tin, Tres>` object: the member `Count mCount`, where
`typedef unsigned int Count`. -/
structure AggrCount where
  mCount : UnsignedInt
deriving DecidableEq, Repr

namespace AggrCount

/-- Member `init()`: `mCount = 0;`. -/
def init (_self : AggrCount) : AggrCount :=
  ⟨⟨0, by decide⟩⟩

/-- Constructor `AggrCount() { init(); }`, run on the not yet initialised object. -/
def ctor (uninitialised : AggrCount) : AggrCount :=
  init uninitialised

/-- Member `iterate(data, outdated)`: `mCount += (outdated ? -1 : 1);`. -/
def iterate {Tin : Type} (_data : Tin) (outdated : Bool) (self : AggrCount) : AggrCount :=
  ⟨toUnsigned ((self.mCount.val : Int) + (if outdated then -1 else 1))⟩

/-- Member `value()`: `return mCount;`, converted to the result type `Tres` by `conv`.
The second component is the object after the call. -/
def value {Tres : Type} (conv : UnsignedInt → Tres) (self : AggrCount) : Tres × AggrCount :=
  (conv self.mCount, self)

/-- A sequence of `iterate` calls, first call first. -/
def iterateAll {Tin : Type} (calls : List (Tin × Bool)) (self : AggrCount) : AggrCount :=
  calls.foldl (fun s c => iterate c.1 c.2 s) self

/-- Number of calls of the sequence made with `outdated = false`. -/
def insertions {Tin : Type} (calls : List (Tin × Bool)) : Nat :=
  calls.countP (fun c => !c.2)

/-- Number of calls of the sequence made with `outdated = true`. -/
def retractions {Tin : Type} (calls : List (Tin × Bool)) : Nat :=
  calls.countP (fun c => c.2)

end AggrCount

/-! ## The calls of the `AggregateFunc` interface -/

/-- One call of the interface `AggregateFunc<Tin, Tres>`: `init()`, `iterate(data, outdated)`
or `value()`. -/
inductive AggrCall (Tin : Type) where
  | init : AggrCall Tin
  | iterate (data : Tin) (outdated : Bool) : AggrCall Tin
  | value : AggrCall Tin
deriving DecidableEq, Repr

namespace AggrCall

/-- Whether the call is a call of `value()`. -/
def isValue {Tin : Type} : AggrCall Tin → Bool
  | AggrCall.value => true
  | _ => false

/-- The sequence of calls with every `value()` call taken out. -/
def dropValues {Tin : Type} (calls : List (AggrCall Tin)) : List (AggrCall Tin) :=
  calls.filter (fun c => !c.isValue)

end AggrCall

namespace AggrCount

/-- One interface call on an `AggrCount`: what the call returns (only `value()` returns
something) and the object afterwards. -/
def call {Tin Tres : Type} (conv : UnsignedInt → Tres) :
    AggrCall Tin → AggrCount → Option Tres × AggrCount
  | AggrCall.init, s => (none, init s)
  | AggrCall.iterate data outdated, s => (none, iterate data outdated s)
  | AggrCall.value, s => (some (value conv s).1, (value conv s).2)

/-- A sequence of interface calls on an `AggrCount`: the results of the `value()` calls in
call order, and the object afterwards. -/
def exec {Tin Tres : Type} (conv : UnsignedInt → Tres) :
    List (AggrCall Tin) → AggrCount → List Tres × AggrCount
  | [], s => ([], s)
  | c :: cs, s =>
    ((call conv c s).1.toList ++ (exec conv cs (call conv c s).2).1,
      (exec conv cs (call conv c s).2).2)

end AggrCount

/-! ## AggrGlobalMax -/

/-- The fault raised by a failing `assert`: the program is aborted. -/
inductive Fault where
  | assertionFailed : Fault
deriving DecidableEq, Repr

/-- The value `std::numeric_limits<int>::min()`: the lowest `int`. -/
def INT_MIN : Int := -2147483648

/-- The value `std::numeric_limits<double>::min()`: the smallest positive normalised
`double`, `2^-1022`.  Finite `double` values are modelled by the rational numbers they
denote, on which `<` agrees with the comparison of doubles. -/
def DBL_MIN : ℚ := 1 / 2 ^ 1022

/-- The value `std::numeric_limits<double>::max()`: the largest finite `double`,
`(2^53 - 1) * 2^971`. -/
def DBL_MAX : ℚ := (2 ^ 53 - 1) * 2 ^ 971

/-- The `double` values with the two infinities: a finite value is the rational number it
denotes, `+inf` is above and `-inf` is below every finite value (NaN is left out).  The
order is the comparison of doubles. -/
abbrev DoubleInf : Type := WithBot (WithTop ℚ)

/-- A finite `double` as a value of `DoubleInf`. -/
def DoubleInf.ofFinite (q : ℚ) : DoubleInf :=
  ((q : WithTop ℚ) : WithBot (WithTop ℚ))

/-- The `double` value `+inf`, `std::numeric_limits<double>::infinity()`. -/
def DoubleInf.posInf : DoubleInf :=
  ((⊤ : WithTop ℚ) : WithBot (WithTop ℚ))

/-- The type `std::string`: a sequence of bytes.  Its `operator<` is the lexicographic order
on the byte values, which is the order of `List`. -/
abbrev StdString : Type := List (Fin 256)

/-- State of an `AggrGlobalMax<Tin>` object: the member `Tin mMax`. -/
structure AggrGlobalMax (Tin : Type) where
  mMax : Tin
deriving DecidableEq, Repr

namespace AggrGlobalMax

/-- Member `init()` of the primary template: `mMax = std::numeric_limits<Tin>::min();`.
The argument `limitsMin` is the value of `std::numeric_limits<Tin>::min()`. -/
def init {Tin : Type} (limitsMin : Tin) (_self : AggrGlobalMax Tin) : AggrGlobalMax Tin :=
  ⟨limitsMin⟩

/-- Member `init()` of the specialisation `AggrGlobalMax<std::string>`: `mMax = 0x00f;`.
The assignment of the integer selects `std::string::operator=(char)`, so the string
becomes the single character with code 15. -/
def initString (_self : AggrGlobalMax StdString) : AggrGlobalMax StdString :=
  ⟨[⟨15, by decide⟩]⟩

/-- Constructor `AggrGlobalMax() { init(); }` of the primary template. -/
def ctor {Tin : Type} (limitsMin : Tin) (uninitialised : AggrGlobalMax Tin) :
    AggrGlobalMax Tin :=
  init limitsMin uninitialised

/-- Constructor `AggrGlobalMax() { init(); }` for `Tin = std::string`. -/
def ctorString (uninitialised : AggrGlobalMax StdString) : AggrGlobalMax StdString :=
  initString uninitialised

/-- Member `iterate(data, outdated)`: `assert(!outdated); mMax = std::max(mMax, data);`,
with assertions compiled in (`NDEBUG` not defined).  The first component tells whether the
call returned or the assertion failed, the second is the object at that moment. -/
def iterate {Tin : Type} [LT Tin] [DecidableRel (fun a b : Tin => a < b)]
    (data : Tin) (outdated : Bool) (self : AggrGlobalMax Tin) :
    Except Fault Unit × AggrGlobalMax Tin :=
  if outdated then (Except.error Fault.assertionFailed, self)
  else (Except.ok (), ⟨stdMax self.mMax data⟩)

/-- Member `value()`: `return mMax;`.  The second component is the object after the call. -/
def value {Tin : Type} (self : AggrGlobalMax Tin) : Tin × AggrGlobalMax Tin :=
  (self.mMax, self)

/-- A sequence of `iterate` calls, first call first; it ends at the first failing
assertion. -/
def iterateAll {Tin : Type} [LT Tin] [DecidableRel (fun a b : Tin => a < b)] :
    List (Tin × Bool) → AggrGlobalMax Tin → Except Fault Unit × AggrGlobalMax Tin
  | [], s => (Except.ok (), s)
  | c :: cs, s =>
    match iterate c.1 c.2 s with
    | (Except.ok _, s1) => iterateAll cs s1
    | (Except.error f, s1) => (Except.error f, s1)

/-- One interface call on an `AggrGlobalMax`, where `initFn` is the `init()` of the
instantiation: whether it returned (and what) or failed, and the object afterwards. -/
def call {Tin : Type} [LT Tin] [DecidableRel (fun a b : Tin => a < b)]
    (initFn : AggrGlobalMax Tin → AggrGlobalMax Tin) :
    AggrCall Tin → AggrGlobalMax Tin → Except Fault (Option Tin) × AggrGlobalMax Tin
  | AggrCall.init, s => (Except.ok none, initFn s)
  | AggrCall.iterate data outdated, s =>
    match iterate data outdated s with
    | (Except.ok _, s1) => (Except.ok none, s1)
    | (Except.error f, s1) => (Except.error f, s1)
  | AggrCall.value, s => (Except.ok (some (value s).1), (value s).2)

/-- A sequence of interface calls on an `AggrGlobalMax`, ending at the first failing
assertion: the results of the `value()` calls made, whether the sequence ran through, and
the object at the end. -/
def exec {Tin : Type} [LT Tin] [DecidableRel (fun a b : Tin => a < b)]
    (initFn : AggrGlobalMax Tin → AggrGlobalMax Tin) :
    List (AggrCall Tin) → AggrGlobalMax Tin →
      (List Tin × Except Fault Unit) × AggrGlobalMax Tin
  | [], s => (([], Except.ok ()), s)
  | c :: cs, s =>
    match call initFn c s with
    | (Except.ok r, s1) =>
      ((r.toList ++ (exec initFn cs s1).1.1, (exec initFn cs s1).1.2), (exec initFn cs s1).2)
    | (Except.error f, s1) => (([], Except.error f), s1)

end AggrGlobalMax

/-! ## RelatedStateValueMax and RelatedStateValueMin

`StorageType` and `ResultType` are instantiated with one and the same arithmetic type `V`,
so that the conversions between them are the identity.  `get` is `std::get<Index>`, the
selection of the field with index `Index` of an event. -/

/-- One call that passes an event to a related-value tracker. -/
inductive ValueCall (Tin : Type) where
  | initValue (e : Tin) : ValueCall Tin
  | updateValue (e : Tin) : ValueCall Tin
deriving DecidableEq, Repr

/-- The event passed by the call. -/
def ValueCall.event {Tin : Type} : ValueCall Tin → Tin
  | ValueCall.initValue e => e
  | ValueCall.updateValue e => e

/-- State of a `RelatedStateValueMax` object: the member `StorageType maxValue`. -/
structure RelatedStateValueMax (V : Type) where
  maxValue : V
deriving DecidableEq, Repr

namespace RelatedStateValueMax

/-- Constructor: `maxValue = std::numeric_limits<double>::min();`.  The argument is that
constant as a value of `StorageType`. -/
def ctor {V : Type} (doubleMin : V) (_uninitialised : RelatedStateValueMax V) :
    RelatedStateValueMax V :=
  ⟨doubleMin⟩

/-- Member `getValue()`: `return maxValue;`. -/
def getValue {V : Type} (self : RelatedStateValueMax V) : V × RelatedStateValueMax V :=
  (self.maxValue, self)

/-- Member `updateValue(e)`:
`ResultType temp = std::get<Index>(e); if (temp > maxValue) this->maxValue = temp;`. -/
def updateValue {Tin V : Type} [LT V] [DecidableRel (fun a b : V => a < b)]
    (get : Tin → V) (e : Tin) (self : RelatedStateValueMax V) : RelatedStateValueMax V :=
  let temp := get e
  if temp > self.maxValue then ⟨temp⟩ else self

/-- Member `initValue(e)`: `updateValue(e);`. -/
def initValue {Tin V : Type} [LT V] [DecidableRel (fun a b : V => a < b)]
    (get : Tin → V) (e : Tin) (self : RelatedStateValueMax V) : RelatedStateValueMax V :=
  updateValue get e self

/-- One call that passes an event. -/
def call {Tin V : Type} [LT V] [DecidableRel (fun a b : V => a < b)]
    (get : Tin → V) : ValueCall Tin → RelatedStateValueMax V → RelatedStateValueMax V
  | ValueCall.initValue e, s => initValue get e s
  | ValueCall.updateValue e, s => updateValue get e s

/-- A sequence of calls that pass events, first call first. -/
def callAll {Tin V : Type} [LT V] [DecidableRel (fun a b : V => a < b)]
    (get : Tin → V) (calls : List (ValueCall Tin)) (self : RelatedStateValueMax V) :
    RelatedStateValueMax V :=
  calls.foldl (fun s c => call get c s) self

end RelatedStateValueMax

/-- State of a `RelatedStateValueMin` object: the member `StorageType minValue`. -/
structure RelatedStateValueMin (V : Type) where
  minValue : V
deriving DecidableEq, Repr

namespace RelatedStateValueMin

/-- Constructor: `minValue = std::numeric_limits<double>::max();`.  The argument is that
constant as a value of `StorageType`. -/
def ctor {V : Type} (doubleMax : V) (_uninitialised : RelatedStateValueMin V) :
    RelatedStateValueMin V :=
  ⟨doubleMax⟩

/-- Member `getValue()`: `return minValue;`. -/
def getValue {V : Type} (self : RelatedStateValueMin V) : V × RelatedStateValueMin V :=
  (self.minValue, self)

/-- Member `updateValue(e)`:
`ResultType temp = std::get<Index>(e); if (temp < minValue) this->minValue = temp;`. -/
def updateValue {Tin V : Type} [LT V] [DecidableRel (fun a b : V => a < b)]
    (get : Tin → V) (e : Tin) (self : RelatedStateValueMin V) : RelatedStateValueMin V :=
  let temp := get e
  if temp < self.minValue then ⟨temp⟩ else self

/-- Member `initValue(e)`: `updateValue(e);`. -/
def initValue {Tin V : Type} [LT V] [DecidableRel (fun a b : V => a < b)]
    (get : Tin → V) (e : Tin) (self : RelatedStateValueMin V) : RelatedStateValueMin V :=
  updateValue get e self

/-- One call that passes an event. -/
def call {Tin V : Type} [LT V] [DecidableRel (fun a b : V => a < b)]
    (get : Tin → V) : ValueCall Tin → RelatedStateValueMin V → RelatedStateValueMin V
  | ValueCall.initValue e, s => initValue get e s
  | ValueCall.updateValue e, s => updateValue get e s

/-- A sequence of calls that pass events, first call first. -/
def callAll {Tin V : Type} [LT V] [DecidableRel (fun a b : V => a < b)]
    (get : Tin → V) (calls : List (ValueCall Tin)) (self : RelatedStateValueMin V) :
    RelatedStateValueMin V :=
  calls.foldl (fun s c => call get c s) self

end RelatedStateValueMin

/-! ## RabbitMQSource

The AMQP client library is outside the repository.  The broker queue is a list of message
payloads, oldest first: `Get` takes the head of the queue, and the message it delivers
reports the number of messages still queued.  A `Get` on an empty queue delivers a message
with an empty payload whose count `emptyCount` is not positive (the library reports `-1`,
a plain count of the queue would be `0`). -/

/-- The object behind `AMQPMessage* m`: the payload `m->getMessage(&len)` and the number
`m->getMessageCount()`. -/
structure AMQPMessage where
  data : StdString
  messageCount : Int
deriving DecidableEq, Repr

/-- What `start()` does, in the order in which it does it. -/
inductive SourceStep where
  | get : SourceStep
  | produceTuple (data : StdString) : SourceStep
  | testMessageCount (count : Int) : SourceStep
deriving DecidableEq, Repr

/-- State of a run of a `RabbitMQSource`: the broker queue, the tuples published on the
output data channel (with their `outdated` flag), and the steps taken so far. -/
structure RabbitMQSource where
  queue : List StdString
  published : List (StdString × Bool)
  steps : List SourceStep
deriving DecidableEq, Repr

namespace RabbitMQSource

/-- The calls `que->Get(AMQP_NOACK); m = que->getMessage();`. -/
def Get (emptyCount : Int) (self : RabbitMQSource) : AMQPMessage × RabbitMQSource :=
  match self.queue with
  | [] => (⟨[], emptyCount⟩, ⟨[], self.published, self.steps ++ [SourceStep.get]⟩)
  | msg :: rest =>
    (⟨msg, (rest.length : Int)⟩, ⟨rest, self.published, self.steps ++ [SourceStep.get]⟩)

/-- Member `produceTuple(data)`:
`auto tn = makeTuplePtr(data); this->getOutputDataChannel().publish(tn, false);`.
The tuple has the payload as its only field. -/
def produceTuple (data : StdString) (self : RabbitMQSource) : RabbitMQSource :=
  ⟨self.queue, self.published ++ [(data, false)],
    self.steps ++ [SourceStep.produceTuple data]⟩

/-- The loop of `start()`:
`while (m->getMessageCount() > 0) { que->Get(AMQP_NOACK); m = que->getMessage();
data = m->getMessage(&len); produceTuple(StringRef(data, len)); }`.
Each test of the loop condition takes one unit of `fuel`; the result is `none` when the
fuel runs out before the loop ends. -/
def loop (emptyCount : Int) : Nat → AMQPMessage → RabbitMQSource → Option RabbitMQSource
  | 0, _, _ => none
  | fuel + 1, m, s =>
    if m.messageCount > 0 then
      loop emptyCount fuel
        (Get emptyCount
          ⟨s.queue, s.published, s.steps ++ [SourceStep.testMessageCount m.messageCount]⟩).1
        (produceTuple
          (Get emptyCount
            ⟨s.queue, s.published,
              s.steps ++ [SourceStep.testMessageCount m.messageCount]⟩).1.data
          (Get emptyCount
            ⟨s.queue, s.published,
              s.steps ++ [SourceStep.testMessageCount m.messageCount]⟩).2)
    else
      some ⟨s.queue, s.published, s.steps ++ [SourceStep.testMessageCount m.messageCount]⟩

/-- Member `start()`: get the first message and publish it, then run the loop, then
`return 0;`.  The result is the returned status and the state at the return. -/
def start (emptyCount : Int) (fuel : Nat) (self : RabbitMQSource) :
    Option (Nat × RabbitMQSource) :=
  match loop emptyCount fuel (Get emptyCount self).1
      (produceTuple (Get emptyCount self).1.data (Get emptyCount self).2) with
  | some s => some (0, s)
  | none => none

end RabbitMQSource

/-! ## The stateful-map test of `test/TopologyTest.cpp`

The lambdas of the test are under the sources; the operators `streamFromGenerator`,
`keyBy`, `statefulMap` and `notify` are not, and are modelled from the specification.
Values of type `double` are the rational numbers they denote: every value that occurs in
the test is a multiple of `0.5` below `2^52`, for which the addition of doubles is exact. -/

/-- Modelled from the spec: the source operator `streamFromGenerator(gen, num)`, which is not
among the sources.  It is a finite source that "runs to completion" and publishes
`gen(0), ..., gen(num - 1)` in this order, each with `outdated = false`. -/
def streamFromGenerator {T : Type} (gen : Nat → T) (num : Nat) : List (T × Bool) :=
  (List.range num).map (fun n => (gen n, false))

/-- Modelled from the spec: the operator `statefulMap`, which is not among the sources.  It
"invokes a user function with (tuple, outdated, state-reference) and emits its result;
exactly-once state mutation per input tuple".  One state object is threaded through the
calls, first tuple first; the result is the emitted elements and the state at the end. -/
def statefulMap {T R S : Type} (f : T → Bool → S → R × S) :
    List (T × Bool) → S → List (R × Bool) × S
  | [], st => ([], st)
  | c :: rest, st =>
    (((f c.1 c.2 st).1, c.2) :: (statefulMap f rest (f c.1 c.2 st).2).1,
      (statefulMap f rest (f c.1 c.2 st).2).2)

/-- The state `struct MySumState { MySumState() : sum(0) {} double sum; };`. -/
structure MySumState where
  sum : ℚ
deriving DecidableEq, Repr

namespace StatefulMapTest

/-- Constructor `MySumState() : sum(0) {}`. -/
def newState : MySumState :=
  ⟨0⟩

/-- The generator `streamGen` of the test: `makeTuplePtr(n, (double)n + 0.5)`. -/
def streamGen (n : Nat) : Nat × ℚ :=
  (n, (n : ℚ) + 1 / 2)

/-- The lambda `mapFun`: `state->sum += get<1>(tp); return makeTuplePtr(state->sum);`.
The result is the field of the returned tuple and the state after the call. -/
def mapFun (tp : Nat × ℚ) (_outdated : Bool) (state : MySumState) : ℚ × MySumState :=
  (state.sum + tp.2, ⟨state.sum + tp.2⟩)

/-- The number `num` of generated tuples. -/
def num : Nat := 1000

/-- The elements that reach the `notify` callback and the state at the end of the run. -/
def run : List (ℚ × Bool) × MySumState :=
  statefulMap mapFun (streamFromGenerator streamGen num) newState

/-- The vector `results` filled by the `notify` callback:
`if (tuplesProcessed < num) results.push_back(get<0>(tp)); tuplesProcessed++;`. -/
def results : List ℚ :=
  (run.1.take num).map (fun r => r.1)

end StatefulMapTest

/-! ## The grouping test of `test/TopologyTest.cpp`

The operator `groupBy` and the aggregation function `AggrSum` are not among the sources
and are modelled from the specification; the generator lambda of the test is under the
sources. -/

/-- Modelled from the spec: the state of the aggregation function `AggrSum`, which is not
among the sources: "Sum (accumulates additively)". -/
structure AggrSum (V : Type) where
  mSum : V
deriving DecidableEq, Repr

namespace AggrSum

/-- Modelled from the spec: `init()` of `AggrSum`, "resets to the identity state". -/
def init {V : Type} [Zero V] (_self : AggrSum V) : AggrSum V :=
  ⟨0⟩

/-- Modelled from the spec: `iterate(data, outdated)` of `AggrSum`, "aggregation functions
add on `outdated=false`, subtract on `outdated=true`". -/
def iterate {V : Type} [Add V] [Sub V] (data : V) (outdated : Bool) (self : AggrSum V) :
    AggrSum V :=
  ⟨if outdated then self.mSum - data else self.mSum + data⟩

/-- Modelled from the spec: `value()` of `AggrSum`, "returns the current aggregate,
callable at any time without side effects". -/
def value {V : Type} (self : AggrSum V) : V × AggrSum V :=
  (self.mSum, self)

end AggrSum

/-- Modelled from the spec: the state of the operator `groupBy`, which is not among the
sources: the accumulator of every key seen so far. -/
structure GroupBy (K V : Type) where
  table : K → Option (AggrSum V)

namespace GroupBy

/-- Modelled from the spec: a `groupBy` operator that has seen no tuple. -/
def empty {K V : Type} : GroupBy K V :=
  ⟨fun _ => none⟩

/-- Modelled from the spec: what `groupBy` does with one tuple: "for each arriving tuple,
looks up (or creates) the accumulator set for its key, calls `iterate` on each with the
correct outdated sign, emits a tuple of `value()`s; on key's first tuple, calls `init`".
`keyOf` is the key function of `keyBy`, `get` selects the aggregated field.  The result is
the emitted value and the operator afterwards. -/
def processTuple {T K V : Type} [DecidableEq K] [Zero V] [Add V] [Sub V]
    (keyOf : T → K) (get : T → V) (c : T × Bool) (self : GroupBy K V) : V × GroupBy K V :=
  (((match self.table (keyOf c.1) with
        | some acc => acc
        | none => AggrSum.init ⟨0⟩).iterate (get c.1) c.2).value.1,
    ⟨Function.update self.table (keyOf c.1)
      (some ((match self.table (keyOf c.1) with
        | some acc => acc
        | none => AggrSum.init ⟨0⟩).iterate (get c.1) c.2).value.2)⟩)

/-- Modelled from the spec: `groupBy` on a stream, first tuple first: the emitted values in
order and the operator afterwards. -/
def processAll {T K V : Type} [DecidableEq K] [Zero V] [Add V] [Sub V]
    (keyOf : T → K) (get : T → V) : List (T × Bool) → GroupBy K V → List V × GroupBy K V
  | [], g => ([], g)
  | c :: rest, g =>
    ((processTuple keyOf get c g).1 :: (processAll keyOf get rest (processTuple keyOf get c g).2).1,
      (processAll keyOf get rest (processTuple keyOf get c g).2).2)

/-- The sum, accumulated from 0 in arrival order, of the aggregated field over the tuples
of `elems` that have the key `k`. -/
def keySum {T K V : Type} [DecidableEq K] [Zero V] [Add V]
    (keyOf : T → K) (get : T → V) (k : K) (elems : List T) : V :=
  ((elems.filter (fun t => decide (keyOf t = k))).map get).foldl (fun a b => a + b) 0

end GroupBy

namespace GroupingTest

/-- The generator `streamGen` of the test:
`if (n<5) return makeTuplePtr(0, (double)n + 0.5); else return makeTuplePtr((int)n, (double)n + 0.5);`. -/
def streamGen (n : Nat) : Int × ℚ :=
  if n < 5 then (0, (n : ℚ) + 1 / 2) else ((n : Int), (n : ℚ) + 1 / 2)

/-- The values printed by the topology of the test:
`streamFromGenerator(streamGen, 10)`, `keyBy` on field 0, `groupBy` with `AggrSum` on
field 1. -/
def printed : List ℚ :=
  (GroupBy.processAll (fun tp : Int × ℚ => tp.1) (fun tp : Int × ℚ => tp.2)
    (streamFromGenerator streamGen 10) GroupBy.empty).1

end GroupingTest

/-! ## The partitioning test of `test/TopologyTest.cpp`

The operators `partitionBy` and `merge` are not among the sources and are modelled from
the specification.  The concurrent execution of the branches is a schedule: the sequence
of the branches whose next tuple `merge` forwards. -/

/-- Modelled from the spec: the operator `partitionBy(fn, n)`, which is not among the
sources: it "routes each tuple to branch `fn(tuple) mod n`".  The result is the input
sequence of each of the `n` branches, branch 0 first. -/
def partitionBy {T : Type} (fn : T → Nat) (n : Nat) (stream : List T) : List (List T) :=
  (List.range n).map (fun b => stream.filter (fun t => decide (fn t % n = b)))

/-- Modelled from the spec: the branches of a partitioned pipeline, each of which runs the
same per-tuple pipeline (`where` "forwards a tuple unchanged iff predicate(tuple, outdated)
holds", `map` "transforms tuple type A to type B via a pure function") on its own input
and keeps the order "within a branch".  `pipe` gives the output of the pipeline for one
tuple, if there is one. -/
def runBranches {T U : Type} (pipe : T → Option U) (branches : List (List T)) :
    List (List U) :=
  branches.map (List.filterMap pipe)

/-- Modelled from the spec: the operator `merge`, which is not among the sources: it "fans
multiple upstream channels into one downstream channel; ordering across branches is not
guaranteed, only within a branch".  The schedule names, step by step, the branch whose
next tuple is forwarded (a step that names a branch with no tuple left forwards nothing).
The result is the sequence forwarded downstream and what is left in the branches. -/
def merge {U : Type} : List Nat → List (List U) → List U × List (List U)
  | [], branches => ([], branches)
  | i :: schedule, branches =>
    match branches[i]? with
    | some (x :: rest) =>
      (x :: (merge schedule (branches.set i rest)).1, (merge schedule (branches.set i rest)).2)
    | _ => merge schedule branches

namespace PartitionTest

/-- The stream of the test: the tuples with the ids `0 .. 999` in order.  A tuple is
represented by its field 0, the only field that the lambdas of the topology read. -/
def stream : List Nat :=
  List.range 1000

/-- The partitioning function of the test: `get<0>(tp) % 5`. -/
def partitionFn (tp : Nat) : Nat :=
  tp % 5

/-- The pipeline of a branch in the test: `where` with `get<0>(tp) % 2 == 0`, then `map`
with `makeTuplePtr(get<0>(tp))`. -/
def branchPipe (tp : Nat) : Option Nat :=
  if tp % 2 = 0 then some tp else none

/-- The vector `results` of the test under a schedule, as the `notify` callback fills it,
and what is left in the branches. -/
def results (schedule : List Nat) : List Nat × List (List Nat) :=
  merge schedule (runBranches branchPipe (partitionBy partitionFn 5 stream))

/-- A schedule for the test that takes the five branches in turn, 100 times. -/
def roundRobin : List Nat :=
  (List.range 500).map (fun i => i % 5)

end PartitionTest

/-! ## Lemmas on AggrCount -/

namespace AggrCount

theorem iterateAll_nil {Tin : Type} (s : AggrCount) :
    iterateAll ([] : List (Tin × Bool)) s = s := rfl

theorem iterateAll_cons {Tin : Type} (c : Tin × Bool) (cs : List (Tin × Bool)) (s : AggrCount) :
    iterateAll (c :: cs) s = iterateAll cs (iterate c.1 c.2 s) := rfl

theorem iterateAll_append {Tin : Type} (xs ys : List (Tin × Bool)) (s : AggrCount) :
    iterateAll (xs ++ ys) s = iterateAll ys (iterateAll xs s) := by
  simp [iterateAll, List.foldl_append]

theorem iterate_val {Tin : Type} (t : Tin) (o : Bool) (s : AggrCount) :
    ((iterate t o s).mCount.val : Int)
      = ((s.mCount.val : Int) + (if o then -1 else 1)) % 4294967296 := by
  simp only [iterate, toUnsigned]
  omega

/-- The counter after a sequence of calls: start plus insertions minus retractions,
reduced modulo `2^32`. -/
theorem iterateAll_val {Tin : Type} (calls : List (Tin × Bool)) (s : AggrCount) :
    ((iterateAll calls s).mCount.val : Int)
      = ((s.mCount.val : Int) + (insertions calls : Int) - (retractions calls : Int))
          % 4294967296 := by
  induction calls generalizing s with
  | nil =>
    have h := s.mCount.isLt
    simp only [iterateAll_nil, insertions, retractions, List.countP_nil]
    omega
  | cons c cs ih =>
    rw [iterateAll_cons, ih, iterate_val]
    obtain ⟨t, o⟩ := c
    cases o <;> simp [insertions, retractions, List.countP_cons] <;> omega

theorem ext_val {a b : AggrCount} (h : (a.mCount.val : Int) = (b.mCount.val : Int)) : a = b := by
  cases a with
  | mk x =>
    cases b with
    | mk y =>
      have : x.val = y.val := by exact_mod_cast h
      rw [Fin.ext this]

theorem insertions_replicate_insert {Tin : Type} (n : Nat) (t : Tin) :
    insertions (List.replicate n (t, false)) = n := by
  induction n with
  | zero => rfl
  | succ k ih =>
    rw [List.replicate_succ]
    simp only [insertions, List.countP_cons] at ih ⊢
    rw [ih]
    simp

theorem retractions_replicate_insert {Tin : Type} (n : Nat) (t : Tin) :
    retractions (List.replicate n (t, false)) = 0 := by
  induction n with
  | zero => rfl
  | succ k ih =>
    rw [List.replicate_succ]
    simp only [retractions, List.countP_cons] at ih ⊢
    rw [ih]
    simp

/-- The result of `value()` after `init()` and `n` calls `iterate(t, false)`. -/
theorem value_replicate_insert {Tin Tres : Type} (conv : UnsignedInt → Tres) (n : Nat) (t : Tin)
    (u : AggrCount) :
    (value conv (iterateAll (List.replicate n (t, false)) (init u))).1
      = conv (toUnsigned (n : Int)) := by
  have h := iterateAll_val (List.replicate n (t, false)) (init u)
  rw [insertions_replicate_insert, retractions_replicate_insert] at h
  simp only [value]
  congr 1
  apply Fin.ext
  have h2 : (((iterateAll (List.replicate n (t, false)) (init u)).mCount.val : Nat) : Int)
      = (((toUnsigned (n : Int)).val : Nat) : Int) := by
    have h3 : (((iterateAll (List.replicate n (t, false)) (init u)).mCount.val : Nat) : Int)
        = (n : Int) % 4294967296 := by
      simpa [init] using h
    rw [h3]
    simp only [toUnsigned]
    omega
  exact_mod_cast h2

end AggrCount

/-! ## Lemmas on the call sequences and on the extremum trackers -/

namespace AggrCount

/-- The object after a sequence of interface calls does not depend on the `value()` calls
in it. -/
theorem exec_state_dropValues {Tin Tres : Type} (conv : UnsignedInt → Tres)
    (calls : List (AggrCall Tin)) (s : AggrCount) :
    (exec conv calls s).2 = (exec conv (AggrCall.dropValues calls) s).2 := by
  induction calls generalizing s with
  | nil => rfl
  | cons c cs ih =>
    cases c with
    | init =>
      simp only [AggrCall.dropValues, List.filter, AggrCall.isValue, Bool.not_false, exec, call]
      exact ih _
    | iterate d o =>
      simp only [AggrCall.dropValues, List.filter, AggrCall.isValue, Bool.not_false, exec, call]
      exact ih _
    | value =>
      simp only [AggrCall.dropValues, List.filter, AggrCall.isValue, Bool.not_true, exec, call,
        value]
      exact ih _

end AggrCount

namespace AggrGlobalMax

/-- The object and the fault status after a sequence of interface calls do not depend on
the `value()` calls in it. -/
theorem exec_outcome_dropValues {Tin : Type} [LT Tin] [DecidableRel (fun a b : Tin => a < b)]
    (initFn : AggrGlobalMax Tin → AggrGlobalMax Tin)
    (calls : List (AggrCall Tin)) (s : AggrGlobalMax Tin) :
    (exec initFn calls s).2 = (exec initFn (AggrCall.dropValues calls) s).2
      ∧ (exec initFn calls s).1.2 = (exec initFn (AggrCall.dropValues calls) s).1.2 := by
  induction calls generalizing s with
  | nil => exact ⟨rfl, rfl⟩
  | cons c cs ih =>
    cases c with
    | init =>
      simp only [AggrCall.dropValues, List.filter, AggrCall.isValue, Bool.not_false, exec, call]
      exact ih _
    | iterate d o =>
      cases o with
      | false =>
        simp only [AggrCall.dropValues, List.filter, AggrCall.isValue, Bool.not_false, exec,
          call, iterate, Bool.false_eq_true, if_false]
        exact ih _
      | true =>
        simp only [AggrCall.dropValues, List.filter, AggrCall.isValue, Bool.not_false, exec,
          call, iterate, if_true]
        exact ⟨trivial, trivial⟩
    | value =>
      simp only [AggrCall.dropValues, List.filter, AggrCall.isValue, Bool.not_true, exec, call,
        value]
      exact ih _

/-- In a linear order `std::max` is the maximum. -/
theorem stdMax_eq_max {T : Type} [LinearOrder T] (a b : T) : stdMax a b = max a b := by
  unfold stdMax
  rcases lt_or_le a b with h | h
  · rw [if_pos h, max_eq_right h.le]
  · rw [if_neg (not_lt.mpr h), max_eq_left h]

/-- A sequence of calls `iterate(x, false)` never faults and folds `max` over the values. -/
theorem iterateAll_inserts {T : Type} [LinearOrder T] (xs : List T) (s : AggrGlobalMax T) :
    iterateAll (xs.map (fun x => (x, false))) s = (Except.ok (), ⟨xs.foldl max s.mMax⟩) := by
  induction xs generalizing s with
  | nil => rfl
  | cons x xs ih =>
    simp only [List.map_cons, iterateAll, iterate, Bool.false_eq_true, if_false, List.foldl_cons]
    rw [ih, stdMax_eq_max]

end AggrGlobalMax

theorem DBL_MIN_pos : 0 < DBL_MIN := by
  unfold DBL_MIN
  positivity

namespace RelatedStateValueMin

theorem callAll_eq_foldl {Tin V : Type} [LinearOrder V] (get : Tin → V)
    (calls : List (ValueCall Tin)) (s : RelatedStateValueMin V) :
    (callAll get calls s).minValue
      = (calls.map (fun c => get c.event)).foldl min s.minValue := by
  induction calls generalizing s with
  | nil => rfl
  | cons c cs ih =>
    have step : (call get c s).minValue = min s.minValue (get c.event) := by
      cases c with
      | initValue e =>
        simp only [call, initValue, updateValue, ValueCall.event]
        rcases lt_or_le (get e) s.minValue with h | h
        · rw [if_pos h, min_eq_right h.le]
        · rw [if_neg (not_lt.mpr h), min_eq_left h]
      | updateValue e =>
        simp only [call, updateValue, ValueCall.event]
        rcases lt_or_le (get e) s.minValue with h | h
        · rw [if_pos h, min_eq_right h.le]
        · rw [if_neg (not_lt.mpr h), min_eq_left h]
    simp only [callAll, List.foldl_cons, List.map_cons] at ih ⊢
    rw [ih, step]

theorem foldl_min_le {V : Type} [LinearOrder V] (l : List V) (m : V) :
    l.foldl min m ≤ m ∧ ∀ f ∈ l, l.foldl min m ≤ f := by
  induction l generalizing m with
  | nil => exact ⟨le_refl _, fun f hf => absurd hf (List.not_mem_nil f)⟩
  | cons x xs ih =>
    simp only [List.foldl_cons]
    obtain ⟨h1, h2⟩ := ih (min m x)
    refine ⟨le_trans h1 (min_le_left _ _), ?_⟩
    intro f hf
    rcases List.mem_cons.mp hf with rfl | hf
    · exact le_trans h1 (min_le_right _ _)
    · exact h2 f hf

theorem foldl_min_mem {V : Type} [LinearOrder V] (l : List V) (m : V) :
    l.foldl min m = m ∨ l.foldl min m ∈ l := by
  induction l generalizing m with
  | nil => exact Or.inl rfl
  | cons x xs ih =>
    simp only [List.foldl_cons]
    rcases ih (min m x) with h | h
    · rcases min_choice m x with hm | hm
      · exact Or.inl (by rw [h, hm])
      · exact Or.inr (by rw [h, hm]; exact List.mem_cons_self _ _)
    · exact Or.inr (List.mem_cons_of_mem _ h)

/-- From a start value that is at least every field value, a non-empty sequence of calls
leaves the minimum of the field values. -/
theorem callAll_is_minimum {Tin V : Type} [LinearOrder V] (get : Tin → V) (seed : V)
    (calls : List (ValueCall Tin)) (hne : calls ≠ [])
    (hle : ∀ c ∈ calls, get c.event ≤ seed) :
    (callAll get calls ⟨seed⟩).minValue ∈ calls.map (fun c => get c.event)
      ∧ ∀ c ∈ calls, (callAll get calls ⟨seed⟩).minValue ≤ get c.event := by
  rw [callAll_eq_foldl]
  have hb := foldl_min_le (calls.map (fun c => get c.event)) seed
  have hlow : ∀ c ∈ calls,
      (calls.map (fun c => get c.event)).foldl min seed ≤ get c.event := by
    intro c hc
    exact hb.2 _ (List.mem_map_of_mem _ hc)
  refine ⟨?_, hlow⟩
  rcases foldl_min_mem (calls.map (fun c => get c.event)) seed with h | h
  · cases calls with
    | nil => exact absurd rfl hne
    | cons c cs =>
      have h1 := hlow c (List.mem_cons_self _ _)
      have h2 := hle c (List.mem_cons_self _ _)
      have h3 : (List.map (fun c => get c.event) (c :: cs)).foldl min seed = get c.event := by
        apply le_antisymm h1
        rw [h]
        exact h2
      rw [h3]
      exact List.mem_map_of_mem _ (List.mem_cons_self _ _)
  · exact h

end RelatedStateValueMin

theorem DBL_MIN_lt_one : DBL_MIN < 1 := by
  unfold DBL_MIN
  rw [div_lt_one (by positivity)]
  exact one_lt_pow₀ (by norm_num) (by norm_num)

theorem one_lt_DBL_MAX : 1 < DBL_MAX := by
  unfold DBL_MAX
  have h1 : (1 : ℚ) ≤ 2 ^ 971 := one_le_pow₀ (by norm_num)
  have h2 : (2 : ℚ) ≤ 2 ^ 53 - 1 := by norm_num
  nlinarith

namespace AggrGlobalMax

theorem foldl_max_ge {T : Type} [LinearOrder T] (l : List T) (m : T) :
    m ≤ l.foldl max m ∧ ∀ y ∈ l, y ≤ l.foldl max m := by
  induction l generalizing m with
  | nil => exact ⟨le_refl _, fun y hy => absurd hy (List.not_mem_nil y)⟩
  | cons x xs ih =>
    simp only [List.foldl_cons]
    obtain ⟨h1, h2⟩ := ih (max m x)
    refine ⟨le_trans (le_max_left _ _) h1, ?_⟩
    intro y hy
    rcases List.mem_cons.mp hy with rfl | hy
    · exact le_trans (le_max_right _ _) h1
    · exact h2 y hy

theorem foldl_max_mem {T : Type} [LinearOrder T] (l : List T) (m : T) :
    l.foldl max m = m ∨ l.foldl max m ∈ l := by
  induction l generalizing m with
  | nil => exact Or.inl rfl
  | cons x xs ih =>
    simp only [List.foldl_cons]
    rcases ih (max m x) with h | h
    · rcases max_choice m x with hm | hm
      · exact Or.inl (by rw [h, hm])
      · exact Or.inr (by rw [h, hm]; exact List.mem_cons_self _ _)
    · exact Or.inr (List.mem_cons_of_mem _ h)

end AggrGlobalMax

/-! ## Theorems on AggrCount -/

/-- C1: retraction cancels insertion on `AggrCount`.  From every state, for every data value
`t`, every sequence `mid` of other `iterate` calls made in between and every sequence
`later` of calls made afterwards, `iterate(t, false)` followed after `mid` by
`iterate(t, true)` leaves the object, and so `value()`, exactly as if neither of the two
calls had been made. -/
theorem AggrCount_retraction_cancels_insertion {Tin Tres : Type} (conv : UnsignedInt → Tres)
    (s : AggrCount) (t : Tin) (mid later : List (Tin × Bool)) :
    AggrCount.iterate t true (AggrCount.iterateAll mid (AggrCount.iterate t false s))
        = AggrCount.iterateAll mid s
      ∧ (AggrCount.value conv
          (AggrCount.iterate t true
            (AggrCount.iterateAll mid (AggrCount.iterate t false s)))).1
        = (AggrCount.value conv (AggrCount.iterateAll mid s)).1
      ∧ (AggrCount.value conv
          (AggrCount.iterateAll later
            (AggrCount.iterate t true
              (AggrCount.iterateAll mid (AggrCount.iterate t false s))))).1
        = (AggrCount.value conv (AggrCount.iterateAll later (AggrCount.iterateAll mid s))).1 := by
  have key : AggrCount.iterate t true (AggrCount.iterateAll mid (AggrCount.iterate t false s))
      = AggrCount.iterateAll mid s := by
    apply AggrCount.ext_val
    rw [AggrCount.iterate_val, AggrCount.iterateAll_val, AggrCount.iterateAll_val,
      AggrCount.iterate_val]
    simp only [if_true, Bool.false_eq_true, if_false]
    omega
  refine ⟨key, ?_, ?_⟩
  · rw [key]
  · rw [key]

/-- C2 (as stated, refuted): after `init(); iterate(x, true)` the value returned by `value()`
for a result type that holds every `unsigned int` value is 4294967295, not the difference
-1 of the two call counts; and for `Tres = int`, after `2^31` calls with `outdated = false`
the value is `-2^31`, not `2^31`. -/
theorem AggrCount_not_signed_accumulator :
    (AggrCount.value convWide
        (AggrCount.iterateAll [((0 : Nat), true)] (AggrCount.init ⟨7⟩))).1 = 4294967295
      ∧ (AggrCount.value convWide
          (AggrCount.iterateAll [((0 : Nat), true)] (AggrCount.init ⟨7⟩))).1
        ≠ (AggrCount.insertions [((0 : Nat), true)] : Int)
            - (AggrCount.retractions [((0 : Nat), true)] : Int)
      ∧ (AggrCount.value convInt
          (AggrCount.iterateAll (List.replicate 2147483648 ((0 : Nat), false))
            (AggrCount.init ⟨7⟩))).1
        ≠ (AggrCount.insertions (List.replicate 2147483648 ((0 : Nat), false)) : Int)
            - (AggrCount.retractions (List.replicate 2147483648 ((0 : Nat), false)) : Int) := by
  refine ⟨by decide, by decide, ?_⟩
  rw [AggrCount.value_replicate_insert convInt 2147483648 0 ⟨7⟩,
    AggrCount.insertions_replicate_insert, AggrCount.retractions_replicate_insert]
  simp only [convInt, toUnsigned]
  split <;> omega

/-- C2 (amended): for every finite sequence of `iterate` calls made after `init()`, `value()`
is the conversion to `Tres` of (insertions minus retractions) modulo `2^32`.  It is the
difference itself when the difference lies in `0 .. 2^32 - 1` and `Tres` holds every
`unsigned int` value, and, for `Tres = int`, when it lies in `-2^31 .. 2^31 - 1`. -/
theorem AggrCount_value_is_net_count_in_range {Tin Tres : Type} (conv : UnsignedInt → Tres)
    (calls : List (Tin × Bool)) (u : AggrCount) :
    (AggrCount.value conv (AggrCount.iterateAll calls (AggrCount.init u))).1
        = conv (toUnsigned
            ((AggrCount.insertions calls : Int) - (AggrCount.retractions calls : Int)))
      ∧ (0 ≤ (AggrCount.insertions calls : Int) - (AggrCount.retractions calls : Int) →
          (AggrCount.insertions calls : Int) - (AggrCount.retractions calls : Int)
            < 4294967296 →
          (AggrCount.value convWide (AggrCount.iterateAll calls (AggrCount.init u))).1
            = (AggrCount.insertions calls : Int) - (AggrCount.retractions calls : Int))
      ∧ (-2147483648 ≤ (AggrCount.insertions calls : Int) - (AggrCount.retractions calls : Int) →
          (AggrCount.insertions calls : Int) - (AggrCount.retractions calls : Int)
            < 2147483648 →
          (AggrCount.value convInt (AggrCount.iterateAll calls (AggrCount.init u))).1
            = (AggrCount.insertions calls : Int) - (AggrCount.retractions calls : Int)) := by
  have h := AggrCount.iterateAll_val calls (AggrCount.init u)
  simp only [AggrCount.init] at h
  refine ⟨?_, ?_, ?_⟩
  · simp only [AggrCount.value]
    congr 1
    apply Fin.ext
    have h2 : (((AggrCount.iterateAll calls (AggrCount.init u)).mCount.val : Nat) : Int)
        = (((toUnsigned ((AggrCount.insertions calls : Int)
            - (AggrCount.retractions calls : Int))).val : Nat) : Int) := by
      simp only [AggrCount.init, toUnsigned]
      omega
    exact_mod_cast h2
  · intro h0 h1
    simp only [AggrCount.value, convWide, AggrCount.init]
    omega
  · intro h0 h1
    simp only [AggrCount.value, convInt, AggrCount.init]
    split <;> omega

/-- Witness of C2 (amended): three insertions and one retraction give 2 for both result
types. -/
theorem AggrCount_value_is_net_count_in_range_witness :
    (AggrCount.value convWide
        (AggrCount.iterateAll [((1 : Nat), false), (1, false), (2, false), (1, true)]
          (AggrCount.init ⟨9⟩))).1 = 2
      ∧ (AggrCount.value convInt
        (AggrCount.iterateAll [((1 : Nat), false), (1, false), (2, false), (1, true)]
          (AggrCount.init ⟨9⟩))).1 = 2 :=
  ⟨(AggrCount_value_is_net_count_in_range convWide
      [((1 : Nat), false), (1, false), (2, false), (1, true)] ⟨9⟩).2.1
      (by decide) (by decide),
    (AggrCount_value_is_net_count_in_range convInt
      [((1 : Nat), false), (1, false), (2, false), (1, true)] ⟨9⟩).2.2
      (by decide) (by decide)⟩

/-- C3: `AggrCount` is independent of call order.  Feeding a finite sequence of
(data, outdated) pairs or any permutation of it to `iterate` after `init()` gives the same
object and the same `value()`. -/
theorem AggrCount_order_independent {Tin Tres : Type} (conv : UnsignedInt → Tres)
    (xs ys : List (Tin × Bool)) (h : xs.Perm ys) (u : AggrCount) :
    AggrCount.iterateAll xs (AggrCount.init u) = AggrCount.iterateAll ys (AggrCount.init u)
      ∧ (AggrCount.value conv (AggrCount.iterateAll xs (AggrCount.init u))).1
        = (AggrCount.value conv (AggrCount.iterateAll ys (AggrCount.init u))).1 := by
  have key : AggrCount.iterateAll xs (AggrCount.init u)
      = AggrCount.iterateAll ys (AggrCount.init u) := by
    apply AggrCount.ext_val
    rw [AggrCount.iterateAll_val, AggrCount.iterateAll_val]
    simp only [AggrCount.insertions, AggrCount.retractions]
    rw [h.countP_eq, h.countP_eq]
  exact ⟨key, by rw [key]⟩

/-- Witness of C3: a sequence of three calls and a rotation of it. -/
theorem AggrCount_order_independent_witness :
    [((1 : Nat), false), (2, true), (3, false)].Perm [(2, true), (3, false), (1, false)]
      ∧ (AggrCount.value convInt
          (AggrCount.iterateAll [((1 : Nat), false), (2, true), (3, false)]
            (AggrCount.init ⟨4⟩))).1
        = (AggrCount.value convInt
          (AggrCount.iterateAll [((2 : Nat), true), (3, false), (1, false)]
            (AggrCount.init ⟨4⟩))).1 :=
  ⟨by decide,
    (AggrCount_order_independent convInt [((1 : Nat), false), (2, true), (3, false)]
      [(2, true), (3, false), (1, false)] (by decide) ⟨4⟩).2⟩

/-! ## Theorems on AggrGlobalMax -/

/-- C4: `AggrGlobalMax` fails fast on retraction.  For every state and every value `x`,
`iterate(x, outdated)` raises the assertion fault if and only if `outdated` is true; the
faulting call leaves the stored maximum unchanged, and a call with `outdated = false`
never faults. -/
theorem AggrGlobalMax_iterate_faults_iff_outdated {Tin : Type} [LT Tin]
    [DecidableRel (fun a b : Tin => a < b)] (s : AggrGlobalMax Tin) (x : Tin)
    (outdated : Bool) :
    ((AggrGlobalMax.iterate x outdated s).1 = Except.error Fault.assertionFailed
        ↔ outdated = true)
      ∧ AggrGlobalMax.iterate x true s = (Except.error Fault.assertionFailed, s)
      ∧ (AggrGlobalMax.iterate x false s).1 = Except.ok () := by
  refine ⟨?_, ?_, ?_⟩
  · cases outdated <;> simp [AggrGlobalMax.iterate]
  · simp [AggrGlobalMax.iterate]
  · simp [AggrGlobalMax.iterate]

/-- C5 (the code at the failing input): for `Tin = double`, `init()` seeds the maximum with
`std::numeric_limits<double>::min()`, the smallest positive double.  After `init()` a first
`iterate(-1.0, false)` or `iterate(0.0, false)` returns without fault and leaves `value()`
at that seed, which is neither `-1.0` nor `0.0`: the first `iterate` does not win, and
`value()` is not the maximum of the sequence. -/
theorem AggrGlobalMax_double_first_iterate_does_not_win :
    AggrGlobalMax.iterateAll [((-1 : ℚ), false)] (AggrGlobalMax.init DBL_MIN ⟨0⟩)
        = (Except.ok (), ⟨DBL_MIN⟩)
      ∧ (AggrGlobalMax.value
          (AggrGlobalMax.iterateAll [((-1 : ℚ), false)]
            (AggrGlobalMax.init DBL_MIN ⟨0⟩)).2).1 ≠ -1
      ∧ AggrGlobalMax.iterateAll [((0 : ℚ), false)] (AggrGlobalMax.init DBL_MIN ⟨0⟩)
        = (Except.ok (), ⟨DBL_MIN⟩)
      ∧ (AggrGlobalMax.value
          (AggrGlobalMax.iterateAll [((0 : ℚ), false)]
            (AggrGlobalMax.init DBL_MIN ⟨0⟩)).2).1 ≠ 0 := by
  have hpos := DBL_MIN_pos
  have h1 : ¬ DBL_MIN < (-1 : ℚ) := by
    intro h
    linarith
  have h0 : ¬ DBL_MIN < (0 : ℚ) := by
    intro h
    linarith
  have e1 : AggrGlobalMax.iterateAll [((-1 : ℚ), false)] (AggrGlobalMax.init DBL_MIN ⟨0⟩)
      = (Except.ok (), ⟨DBL_MIN⟩) := by
    simp only [AggrGlobalMax.iterateAll, AggrGlobalMax.iterate, AggrGlobalMax.init, stdMax,
      Bool.false_eq_true, if_false, if_neg h1]
  have e0 : AggrGlobalMax.iterateAll [((0 : ℚ), false)] (AggrGlobalMax.init DBL_MIN ⟨0⟩)
      = (Except.ok (), ⟨DBL_MIN⟩) := by
    simp only [AggrGlobalMax.iterateAll, AggrGlobalMax.iterate, AggrGlobalMax.init, stdMax,
      Bool.false_eq_true, if_false, if_neg h0]
  refine ⟨e1, ?_, e0, ?_⟩
  · rw [e1]
    simp only [AggrGlobalMax.value]
    intro h
    linarith
  · rw [e0]
    simp only [AggrGlobalMax.value]
    intro h
    linarith

/-- C6: for `AggrGlobalMax<std::string>`, `init()` sets the state to the one-character
string with code `0x0F`, not to the empty string.  The empty string is a string `s` for
which `init(); iterate(s, false)` returns without fault and leaves `value()` different
from `s`. -/
theorem AggrGlobalMax_string_init_is_sentinel (u : AggrGlobalMax StdString) :
    (AggrGlobalMax.initString u).mMax = [(15 : Fin 256)]
      ∧ (AggrGlobalMax.initString u).mMax ≠ []
      ∧ (AggrGlobalMax.iterate ([] : StdString) false (AggrGlobalMax.initString u)).1
        = Except.ok ()
      ∧ (AggrGlobalMax.value
          (AggrGlobalMax.iterate ([] : StdString) false (AggrGlobalMax.initString u)).2).1
        = [(15 : Fin 256)]
      ∧ ∃ s : StdString,
          (AggrGlobalMax.value
            (AggrGlobalMax.iterate s false (AggrGlobalMax.initString u)).2).1 ≠ s := by
  have hv : (AggrGlobalMax.value
      (AggrGlobalMax.iterate ([] : StdString) false (AggrGlobalMax.initString u)).2).1
        = [(15 : Fin 256)] := by
    simp only [AggrGlobalMax.value, AggrGlobalMax.iterate, AggrGlobalMax.initString, stdMax,
      Bool.false_eq_true, if_false]
    decide
  refine ⟨rfl, by simp [AggrGlobalMax.initString], by simp [AggrGlobalMax.iterate], hv, [], ?_⟩
  rw [hv]
  simp

/-! ## Theorems on both aggregation functions -/

/-- C7: `init()` resets to the identity state whatever happened before.  After every finite
sequence of `iterate` calls from every state, `init()` puts an `AggrCount` (with
`value()` the conversion of 0) and an `AggrGlobalMax` (with `value()` the seed of a fresh
instance; primary template and `std::string` specialisation) in exactly the state of a
newly constructed object, so every subsequent sequence of `iterate` calls has the same
outcome and the same `value()` as on a fresh instance. -/
theorem init_resets_to_fresh_state {Tin Tres : Type} [LT Tin]
    [DecidableRel (fun a b : Tin => a < b)] (conv : UnsignedInt → Tres) (limitsMin : Tin)
    (before after : List (Tin × Bool)) (s0 u : AggrCount) (g0 gu : AggrGlobalMax Tin)
    (beforeS afterS : List (StdString × Bool)) (w0 wu : AggrGlobalMax StdString) :
    (AggrCount.init (AggrCount.iterateAll before s0) = AggrCount.ctor u
      ∧ (AggrCount.value conv (AggrCount.init (AggrCount.iterateAll before s0))).1
        = conv ⟨0, by decide⟩
      ∧ (AggrCount.value convWide (AggrCount.init (AggrCount.iterateAll before s0))).1 = 0
      ∧ (AggrCount.value convInt (AggrCount.init (AggrCount.iterateAll before s0))).1 = 0
      ∧ (AggrCount.value conv
          (AggrCount.iterateAll after (AggrCount.init (AggrCount.iterateAll before s0)))).1
        = (AggrCount.value conv (AggrCount.iterateAll after (AggrCount.ctor u))).1)
      ∧ (AggrGlobalMax.init limitsMin (AggrGlobalMax.iterateAll before g0).2
          = AggrGlobalMax.ctor limitsMin gu
        ∧ (AggrGlobalMax.value
            (AggrGlobalMax.init limitsMin (AggrGlobalMax.iterateAll before g0).2)).1
          = limitsMin
        ∧ AggrGlobalMax.iterateAll after
            (AggrGlobalMax.init limitsMin (AggrGlobalMax.iterateAll before g0).2)
          = AggrGlobalMax.iterateAll after (AggrGlobalMax.ctor limitsMin gu))
      ∧ (AggrGlobalMax.initString (AggrGlobalMax.iterateAll beforeS w0).2
          = AggrGlobalMax.ctorString wu
        ∧ AggrGlobalMax.iterateAll afterS
            (AggrGlobalMax.initString (AggrGlobalMax.iterateAll beforeS w0).2)
          = AggrGlobalMax.iterateAll afterS (AggrGlobalMax.ctorString wu)) := by
  refine ⟨⟨rfl, rfl, rfl, rfl, rfl⟩, ⟨rfl, rfl, rfl⟩, ⟨rfl, rfl⟩⟩

/-- C8: `value()` has no side effects.  For every state of `AggrCount` and of
`AggrGlobalMax`, `value()` leaves the object unchanged, two consecutive `value()` calls
return the same result, and the object reached by a sequence of interface calls (for
`AggrGlobalMax` also whether and where it faults) is the same with the `value()` calls as
without them, so that every later call sequence returns the same results. -/
theorem value_has_no_side_effects {Tin Tres : Type} [LT Tin]
    [DecidableRel (fun a b : Tin => a < b)] (conv : UnsignedInt → Tres)
    (initFn : AggrGlobalMax Tin → AggrGlobalMax Tin)
    (s : AggrCount) (g : AggrGlobalMax Tin) (calls later : List (AggrCall Tin)) :
    ((AggrCount.value conv s).2 = s
      ∧ (AggrCount.value conv (AggrCount.value conv s).2).1 = (AggrCount.value conv s).1
      ∧ (AggrCount.exec conv calls s).2
        = (AggrCount.exec conv (AggrCall.dropValues calls) s).2
      ∧ AggrCount.exec conv later (AggrCount.exec conv calls s).2
        = AggrCount.exec conv later (AggrCount.exec conv (AggrCall.dropValues calls) s).2)
      ∧ ((AggrGlobalMax.value g).2 = g
        ∧ (AggrGlobalMax.value (AggrGlobalMax.value g).2).1 = (AggrGlobalMax.value g).1
        ∧ (AggrGlobalMax.exec initFn calls g).2
          = (AggrGlobalMax.exec initFn (AggrCall.dropValues calls) g).2
        ∧ (AggrGlobalMax.exec initFn calls g).1.2
          = (AggrGlobalMax.exec initFn (AggrCall.dropValues calls) g).1.2
        ∧ AggrGlobalMax.exec initFn later (AggrGlobalMax.exec initFn calls g).2
          = AggrGlobalMax.exec initFn later
              (AggrGlobalMax.exec initFn (AggrCall.dropValues calls) g).2) := by
  have hc := AggrCount.exec_state_dropValues conv calls s
  have hg := AggrGlobalMax.exec_outcome_dropValues initFn calls g
  refine ⟨⟨rfl, rfl, hc, by rw [hc]⟩, ⟨rfl, rfl, hg.1, hg.2, by rw [hg.1]⟩⟩

/-! ## Theorems on the related-value trackers -/

/-- C9 (the code at the failing input): for `StorageType = ResultType = double`, the
constructor seeds `maxValue` with `std::numeric_limits<double>::min()`, the smallest
positive double.  On a fresh tracker a first event with field `-1.0` or `0.0`, passed to
`initValue`, does not initialise the value: `getValue()` stays at the seed; and after the
events with fields `-3.0`, `-1.0` it is still the seed, not the maximum `-1.0`.  For
`StorageType = ResultType = int` the seed is that constant truncated to `int`, which is 0,
and a first event with field `-5` leaves `getValue()` at 0. -/
theorem RelatedStateValueMax_first_event_does_not_initialise :
    (RelatedStateValueMax.getValue
        (RelatedStateValueMax.callAll (fun e : ℚ × ℚ => e.1) [ValueCall.initValue (-1, 7)]
          (RelatedStateValueMax.ctor DBL_MIN ⟨0⟩))).1 = DBL_MIN
      ∧ (RelatedStateValueMax.getValue
        (RelatedStateValueMax.callAll (fun e : ℚ × ℚ => e.1) [ValueCall.initValue (0, 7)]
          (RelatedStateValueMax.ctor DBL_MIN ⟨0⟩))).1 = DBL_MIN
      ∧ (RelatedStateValueMax.getValue
        (RelatedStateValueMax.callAll (fun e : ℚ × ℚ => e.1)
          [ValueCall.initValue (-3, 7), ValueCall.updateValue (-1, 8)]
          (RelatedStateValueMax.ctor DBL_MIN ⟨0⟩))).1 = DBL_MIN
      ∧ DBL_MIN ≠ -1 ∧ DBL_MIN ≠ 0
      ∧ (RelatedStateValueMax.getValue
        (RelatedStateValueMax.callAll (fun e : Int × Int => e.1) [ValueCall.initValue (-5, 7)]
          (RelatedStateValueMax.ctor (0 : Int) ⟨9⟩))).1 = 0 := by
  have hpos := DBL_MIN_pos
  have h1 : ¬ DBL_MIN < (-1 : ℚ) := by
    intro h
    linarith
  have h0 : ¬ DBL_MIN < (0 : ℚ) := by
    intro h
    linarith
  have h3 : ¬ DBL_MIN < (-3 : ℚ) := by
    intro h
    linarith
  refine ⟨?_, ?_, ?_, ?_, ?_, by decide⟩
  · simp only [RelatedStateValueMax.getValue, RelatedStateValueMax.callAll, List.foldl,
      RelatedStateValueMax.call, RelatedStateValueMax.initValue,
      RelatedStateValueMax.updateValue, RelatedStateValueMax.ctor, gt_iff_lt, if_neg h1]
  · simp only [RelatedStateValueMax.getValue, RelatedStateValueMax.callAll, List.foldl,
      RelatedStateValueMax.call, RelatedStateValueMax.initValue,
      RelatedStateValueMax.updateValue, RelatedStateValueMax.ctor, gt_iff_lt, if_neg h0]
  · simp only [RelatedStateValueMax.getValue, RelatedStateValueMax.callAll, List.foldl,
      RelatedStateValueMax.call, RelatedStateValueMax.initValue,
      RelatedStateValueMax.updateValue, RelatedStateValueMax.ctor, gt_iff_lt, if_neg h3,
      if_neg h1]
  · intro h
    linarith
  · intro h
    linarith

/-- Where `RelatedStateValueMin` tracks the minimum: `StorageType = ResultType = double` and
finite field values (none above `std::numeric_limits<double>::max()`).  On a freshly
constructed tracker the first event then initialises the value, and after every non-empty
sequence of events passed to `initValue` / `updateValue`, `getValue()` is the minimum of
the selected field over those events: it is the field of one of them and is at most the
field of each. -/
theorem RelatedStateValueMin_getValue_is_minimum {Tin : Type} (get : Tin → ℚ)
    (calls : List (ValueCall Tin)) (u : RelatedStateValueMin ℚ) (hne : calls ≠ [])
    (hfinite : ∀ c ∈ calls, get c.event ≤ DBL_MAX) :
    (∀ first rest, calls = first :: rest →
        (RelatedStateValueMin.getValue
          (RelatedStateValueMin.call get first (RelatedStateValueMin.ctor DBL_MAX u))).1
          = get first.event)
      ∧ (RelatedStateValueMin.getValue
          (RelatedStateValueMin.callAll get calls (RelatedStateValueMin.ctor DBL_MAX u))).1
        ∈ calls.map (fun c => get c.event)
      ∧ ∀ c ∈ calls,
          (RelatedStateValueMin.getValue
            (RelatedStateValueMin.callAll get calls (RelatedStateValueMin.ctor DBL_MAX u))).1
          ≤ get c.event := by
  refine ⟨?_, ?_⟩
  · intro first rest hcalls
    have hf : get first.event ≤ DBL_MAX := hfinite first (by rw [hcalls]; exact List.mem_cons_self _ _)
    have h1 := RelatedStateValueMin.callAll_is_minimum get DBL_MAX [first] (by simp)
      (by
        intro c hc
        rw [List.mem_singleton] at hc
        rw [hc]
        exact hf)
    have h2 := h1.1
    simp only [List.map_cons, List.map_nil, List.mem_singleton] at h2
    exact h2
  · exact RelatedStateValueMin.callAll_is_minimum get DBL_MAX calls hne hfinite

/-- An instance of the finite case: the events with fields 3, -2, 5 give the minimum -2. -/
theorem RelatedStateValueMin_getValue_is_minimum_witness :
    (RelatedStateValueMin.getValue
        (RelatedStateValueMin.callAll (fun e : ℚ × ℚ => e.1)
          [ValueCall.initValue (3, 1), ValueCall.updateValue (-2, 0),
            ValueCall.updateValue (5, 5)]
          (RelatedStateValueMin.ctor DBL_MAX ⟨0⟩))).1
      ≤ (fun e : ℚ × ℚ => e.1) (ValueCall.updateValue ((-2 : ℚ), (0 : ℚ))).event :=
  (RelatedStateValueMin_getValue_is_minimum (fun e : ℚ × ℚ => e.1)
    [ValueCall.initValue (3, 1), ValueCall.updateValue (-2, 0), ValueCall.updateValue (5, 5)]
    ⟨0⟩ (by simp)
    (by
      intro c hc
      simp only [List.mem_cons, List.mem_singleton, List.not_mem_nil, or_false] at hc
      rcases hc with rfl | rfl | rfl <;> simp only [ValueCall.event, DBL_MAX] <;> norm_num)).2.2
    (ValueCall.updateValue (-2, 0)) (by simp)

/-- C10 (the code at the failing input): for `StorageType = ResultType = double`, the
constructor seeds `minValue` with `std::numeric_limits<double>::max()`, the largest finite
double, and `initValue(e)` only calls `updateValue(e)`.  On a fresh tracker a first event
with field `+inf`, passed to `initValue`, does not initialise the value: `+inf < minValue`
is false, so `getValue()` stays at the seed, which is not the field of the event; after
two events with field `+inf` it is still the seed, not their minimum `+inf`. -/
theorem RelatedStateValueMin_first_event_does_not_initialise :
    (RelatedStateValueMin.getValue
        (RelatedStateValueMin.callAll (fun e : DoubleInf × ℚ => e.1)
          [ValueCall.initValue (DoubleInf.posInf, 7)]
          (RelatedStateValueMin.ctor (DoubleInf.ofFinite DBL_MAX) ⟨⊥⟩))).1
        = DoubleInf.ofFinite DBL_MAX
      ∧ (RelatedStateValueMin.getValue
        (RelatedStateValueMin.callAll (fun e : DoubleInf × ℚ => e.1)
          [ValueCall.initValue (DoubleInf.posInf, 7),
            ValueCall.updateValue (DoubleInf.posInf, 8)]
          (RelatedStateValueMin.ctor (DoubleInf.ofFinite DBL_MAX) ⟨⊥⟩))).1
        = DoubleInf.ofFinite DBL_MAX
      ∧ DoubleInf.ofFinite DBL_MAX ≠ (fun e : DoubleInf × ℚ => e.1) (DoubleInf.posInf, 7)
      ∧ DoubleInf.ofFinite DBL_MAX < DoubleInf.posInf := by
  have hlt : DoubleInf.ofFinite DBL_MAX < DoubleInf.posInf := by
    simp only [DoubleInf.ofFinite, DoubleInf.posInf, WithBot.coe_lt_coe]
    exact WithTop.coe_lt_top DBL_MAX
  have hnot : ¬ DoubleInf.posInf < DoubleInf.ofFinite DBL_MAX := not_lt.mpr hlt.le
  refine ⟨?_, ?_, ne_of_lt hlt, hlt⟩
  · simp only [RelatedStateValueMin.getValue, RelatedStateValueMin.callAll, List.foldl,
      RelatedStateValueMin.call, RelatedStateValueMin.initValue,
      RelatedStateValueMin.updateValue, RelatedStateValueMin.ctor, if_neg hnot]
  · simp only [RelatedStateValueMin.getValue, RelatedStateValueMin.callAll, List.foldl,
      RelatedStateValueMin.call, RelatedStateValueMin.initValue,
      RelatedStateValueMin.updateValue, RelatedStateValueMin.ctor, if_neg hnot]

/-- C11 (the code at the failing inputs): `initValue(e)` only calls `updateValue(e)`, so it
does not initialise a tracker that has already absorbed an event.  For `double` values, a
`RelatedStateValueMax` that has absorbed an event with field `10.0` still returns `10.0`
from `getValue()` after `initValue(e)` with field `3.0`, and a `RelatedStateValueMin` that
has absorbed an event with field `1.0` still returns `1.0` after `initValue(e)` with field
`5.0`. -/
theorem RelatedStateValue_initValue_keeps_earlier_extremum :
    (RelatedStateValueMax.getValue
        (RelatedStateValueMax.initValue (fun e : ℚ × ℚ => e.1) (3, 7)
          (RelatedStateValueMax.callAll (fun e : ℚ × ℚ => e.1) [ValueCall.initValue (10, 7)]
            (RelatedStateValueMax.ctor DBL_MIN ⟨0⟩)))).1 = 10
      ∧ (RelatedStateValueMin.getValue
        (RelatedStateValueMin.initValue (fun e : ℚ × ℚ => e.1) (5, 7)
          (RelatedStateValueMin.callAll (fun e : ℚ × ℚ => e.1) [ValueCall.initValue (1, 7)]
            (RelatedStateValueMin.ctor DBL_MAX ⟨0⟩)))).1 = 1
      ∧ (fun e : ℚ × ℚ => e.1) (3, 7) ≠ 10 ∧ (fun e : ℚ × ℚ => e.1) (5, 7) ≠ 1 := by
  have h1 : DBL_MIN < (10 : ℚ) := lt_trans DBL_MIN_lt_one (by norm_num)
  have h2 : ¬ ((10 : ℚ) < 3) := by norm_num
  have h3 : (1 : ℚ) < DBL_MAX := one_lt_DBL_MAX
  have h4 : ¬ ((5 : ℚ) < 1) := by norm_num
  refine ⟨?_, ?_, by norm_num, by norm_num⟩
  · simp only [RelatedStateValueMax.getValue, RelatedStateValueMax.callAll, List.foldl,
      RelatedStateValueMax.call, RelatedStateValueMax.initValue,
      RelatedStateValueMax.updateValue, RelatedStateValueMax.ctor, gt_iff_lt, if_pos h1,
      if_neg h2]
  · simp only [RelatedStateValueMin.getValue, RelatedStateValueMin.callAll, List.foldl,
      RelatedStateValueMin.call, RelatedStateValueMin.initValue,
      RelatedStateValueMin.updateValue, RelatedStateValueMin.ctor, if_pos h3, if_neg h4]

/-! ## Further theorems on the aggregation functions -/

/-- C16: `AggrCount` counts modulo `2^32`.  For every finite sequence of `iterate` calls after
`init()` the stored count is (insertions minus retractions) modulo `2^32`, and `value()`
returns the stored count converted to `Tres`; `init(); iterate(x, true)` leaves the counter
at 4294967295 and `value()` returns the conversion of that number. -/
theorem AggrCount_counts_modulo_two_pow_32 {Tin Tres : Type} (conv : UnsignedInt → Tres)
    (calls : List (Tin × Bool)) (x : Tin) (u : AggrCount) :
    (((AggrCount.iterateAll calls (AggrCount.init u)).mCount.val : Nat) : Int)
        = ((AggrCount.insertions calls : Int) - (AggrCount.retractions calls : Int))
            % 4294967296
      ∧ (AggrCount.value conv (AggrCount.iterateAll calls (AggrCount.init u))).1
        = conv (AggrCount.iterateAll calls (AggrCount.init u)).mCount
      ∧ (AggrCount.iterate x true (AggrCount.init u)).mCount.val = 4294967295
      ∧ (AggrCount.value conv (AggrCount.iterate x true (AggrCount.init u))).1
        = conv ⟨4294967295, by decide⟩ := by
  refine ⟨?_, rfl, rfl, rfl⟩
  rw [AggrCount.iterateAll_val calls (AggrCount.init u)]
  simp [AggrCount.init]

/-- C17: `AggrGlobalMax` is monotone and an upper bound, for a linearly ordered `Tin`.  A
call `iterate(x, false)` never decreases `value()`; after `init()` and a sequence of calls
`iterate(y, false)`, `value()` is at least the seed and at least every iterated value, and
is either the seed or one of the iterated values; and iterating a value that is not
greater than the current `value()` leaves the state unchanged. -/
theorem AggrGlobalMax_monotone_upper_bound {Tin : Type} [LinearOrder Tin] (limitsMin : Tin)
    (xs : List Tin) (x : Tin) (s u : AggrGlobalMax Tin) :
    (AggrGlobalMax.value s).1
        ≤ (AggrGlobalMax.value (AggrGlobalMax.iterate x false s).2).1
      ∧ (AggrGlobalMax.iterateAll (xs.map (fun y => (y, false)))
          (AggrGlobalMax.init limitsMin u)).1 = Except.ok ()
      ∧ (∀ y ∈ xs, y ≤ (AggrGlobalMax.value
          (AggrGlobalMax.iterateAll (xs.map (fun y => (y, false)))
            (AggrGlobalMax.init limitsMin u)).2).1)
      ∧ limitsMin ≤ (AggrGlobalMax.value
          (AggrGlobalMax.iterateAll (xs.map (fun y => (y, false)))
            (AggrGlobalMax.init limitsMin u)).2).1
      ∧ ((AggrGlobalMax.value
          (AggrGlobalMax.iterateAll (xs.map (fun y => (y, false)))
            (AggrGlobalMax.init limitsMin u)).2).1 = limitsMin
        ∨ (AggrGlobalMax.value
          (AggrGlobalMax.iterateAll (xs.map (fun y => (y, false)))
            (AggrGlobalMax.init limitsMin u)).2).1 ∈ xs)
      ∧ (¬ (AggrGlobalMax.value s).1 < x →
          AggrGlobalMax.iterate x false s = (Except.ok (), s)) := by
  rw [AggrGlobalMax.iterateAll_inserts]
  simp only [AggrGlobalMax.value, AggrGlobalMax.init]
  have hge := AggrGlobalMax.foldl_max_ge xs limitsMin
  refine ⟨?_, trivial, hge.2, hge.1, AggrGlobalMax.foldl_max_mem xs limitsMin, ?_⟩
  · simp only [AggrGlobalMax.iterate, Bool.false_eq_true, if_false]
    rw [AggrGlobalMax.stdMax_eq_max]
    exact le_max_left _ _
  · intro h
    simp only [AggrGlobalMax.iterate, Bool.false_eq_true, if_false, stdMax, if_neg h]

/-- Witness of C17: iterating 3 on a maximum of 5 leaves the state unchanged. -/
theorem AggrGlobalMax_monotone_upper_bound_witness :
    AggrGlobalMax.iterate (3 : Int) false ⟨5⟩ = (Except.ok (), ⟨5⟩) :=
  (AggrGlobalMax_monotone_upper_bound INT_MIN [(1 : Int), 5] 3 ⟨5⟩ ⟨0⟩).2.2.2.2.2 (by decide)

/-! ## Theorems on RabbitMQSource -/

namespace RabbitMQSource

/-- The loop, entered with a message that reports the length of the queue, drains the
queue: it publishes the queued payloads in order and ends, and the first step it takes is
the test of the message count. -/
theorem loop_drains (emptyCount : Int) (q : List StdString) (fuel : Nat) (m : AMQPMessage)
    (pub : List (StdString × Bool)) (steps : List SourceStep)
    (hm : m.messageCount = (q.length : Int)) (hfuel : q.length < fuel) :
    ∃ rest, loop emptyCount fuel m ⟨q, pub, steps⟩
      = some ⟨[], pub ++ q.map (fun d => (d, false)),
          steps ++ SourceStep.testMessageCount m.messageCount :: rest⟩ := by
  induction q generalizing fuel m pub steps with
  | nil =>
    cases fuel with
    | zero => exact absurd hfuel (Nat.lt_irrefl 0)
    | succ f =>
      have h0 : ¬ m.messageCount > 0 := by
        rw [hm]
        simp
      refine ⟨[], ?_⟩
      simp only [loop, if_neg h0, List.map_nil, List.append_nil]
  | cons x xs ih =>
    cases fuel with
    | zero => exact absurd hfuel (Nat.not_lt_zero _)
    | succ f =>
      have hpos : m.messageCount > 0 := by
        rw [hm]
        simp only [List.length_cons]
        omega
      have hf : xs.length < f := by
        simp only [List.length_cons] at hfuel
        omega
      obtain ⟨rest, hrest⟩ := ih f ⟨x, (xs.length : Int)⟩ (pub ++ [(x, false)])
        (steps ++ [SourceStep.testMessageCount m.messageCount] ++ [SourceStep.get]
          ++ [SourceStep.produceTuple x]) rfl hf
      refine ⟨SourceStep.get :: SourceStep.produceTuple x
        :: SourceStep.testMessageCount (xs.length : Int) :: rest, ?_⟩
      simp only [loop, if_pos hpos, Get, produceTuple]
      rw [hrest]
      simp

end RabbitMQSource

/-- C12: `RabbitMQSource::start` drains the queue.  For a queue of `n >= 1` messages, and
with fuel for `n` tests of the loop condition, `start()` terminates with status 0, leaves
the queue empty and has published exactly the `n` payloads, one tuple per message, in
queue order, each with `outdated = false`. -/
theorem RabbitMQSource_start_drains_queue (emptyCount : Int) (msgs : List StdString)
    (pub : List (StdString × Bool)) (steps : List SourceStep) (fuel : Nat)
    (hne : msgs ≠ []) (hfuel : msgs.length ≤ fuel) :
    (RabbitMQSource.start emptyCount fuel ⟨msgs, pub, steps⟩).map
        (fun r => (r.1, r.2.queue, r.2.published))
      = some (0, [], pub ++ msgs.map (fun d => (d, false))) := by
  cases msgs with
  | nil => exact absurd rfl hne
  | cons x xs =>
    have hf : xs.length < fuel := by
      simp only [List.length_cons] at hfuel
      omega
    obtain ⟨rest, hrest⟩ := RabbitMQSource.loop_drains emptyCount xs fuel
      ⟨x, (xs.length : Int)⟩ (pub ++ [(x, false)])
      (steps ++ [SourceStep.get] ++ [SourceStep.produceTuple x]) rfl hf
    simp only [RabbitMQSource.start, RabbitMQSource.Get, RabbitMQSource.produceTuple]
    rw [hrest]
    simp

/-- Witness of C12: a queue of three messages. -/
theorem RabbitMQSource_start_drains_queue_witness :
    (RabbitMQSource.start (-1) 3 ⟨[[65], [66, 67], []], [], []⟩).map
        (fun r => (r.1, r.2.queue, r.2.published))
      = some (0, [], [] ++ [[65], [66, 67], []].map (fun d => (d, false))) :=
  RabbitMQSource_start_drains_queue (-1) [[65], [66, 67], []] [] [] 3 (by decide) (by decide)

/-- C18: `RabbitMQSource::start` publishes before it checks.  For every queue, the empty
queue included, `start()` does one `Get` and one `produceTuple` before the first test of
the message count, terminates with status 0 and publishes `max(1, n)` tuples for a queue
of `n` messages; on an empty queue it publishes exactly one tuple, built from the empty
payload of the failed `Get`, with `outdated = false`. -/
theorem RabbitMQSource_start_publishes_before_check (emptyCount : Int)
    (msgs : List StdString) (pub : List (StdString × Bool)) (steps : List SourceStep)
    (fuel : Nat) (hempty : emptyCount ≤ 0) (hfuel : msgs.length < fuel) :
    (∃ s, RabbitMQSource.start emptyCount fuel ⟨msgs, pub, steps⟩ = some (0, s)
        ∧ s.published.length = pub.length + max 1 msgs.length
        ∧ ∃ rest, s.steps = steps ++ SourceStep.get
            :: SourceStep.produceTuple (msgs.headD [])
            :: SourceStep.testMessageCount
                (RabbitMQSource.Get emptyCount ⟨msgs, pub, steps⟩).1.messageCount
            :: rest)
      ∧ (RabbitMQSource.start emptyCount fuel ⟨[], pub, steps⟩).map
          (fun r => (r.1, r.2.queue, r.2.published))
        = some (0, [], pub ++ [([], false)]) := by
  have h0 : ¬ emptyCount > 0 := by omega
  have hfuel1 : ∃ f, fuel = f + 1 := ⟨fuel - 1, by omega⟩
  obtain ⟨f, rfl⟩ := hfuel1
  constructor
  · cases msgs with
    | nil =>
      refine ⟨⟨[], pub ++ [([], false)],
        steps ++ [SourceStep.get] ++ [SourceStep.produceTuple []]
          ++ [SourceStep.testMessageCount emptyCount]⟩, ?_, ?_, [], ?_⟩
      · simp only [RabbitMQSource.start, RabbitMQSource.Get, RabbitMQSource.produceTuple,
          RabbitMQSource.loop, if_neg h0]
      · simp
      · simp [RabbitMQSource.Get]
    | cons x xs =>
      have hf : xs.length < f + 1 := by
        simp only [List.length_cons] at hfuel
        omega
      obtain ⟨rest, hrest⟩ := RabbitMQSource.loop_drains emptyCount xs (f + 1)
        ⟨x, (xs.length : Int)⟩ (pub ++ [(x, false)])
        (steps ++ [SourceStep.get] ++ [SourceStep.produceTuple x]) rfl hf
      refine ⟨⟨[], pub ++ [(x, false)] ++ List.map (fun d => (d, false)) xs,
        steps ++ [SourceStep.get] ++ [SourceStep.produceTuple x]
          ++ SourceStep.testMessageCount (xs.length : Int) :: rest⟩, ?_, ?_, rest, ?_⟩
      · simp only [RabbitMQSource.start, RabbitMQSource.Get, RabbitMQSource.produceTuple]
        rw [hrest]
      · simp only [List.length_append, List.length_map, List.length_cons, List.length_nil]
        omega
      · simp [RabbitMQSource.Get]
  · simp only [RabbitMQSource.start, RabbitMQSource.Get, RabbitMQSource.produceTuple,
      RabbitMQSource.loop, if_neg h0]
    rfl

/-- Witness of C18: the empty queue, with the count `-1` after the failed `Get`. -/
theorem RabbitMQSource_start_publishes_before_check_witness :
    (RabbitMQSource.start (-1) 1 ⟨[], [], []⟩).map
        (fun r => (r.1, r.2.queue, r.2.published))
      = some (0, [], [] ++ [([], false)]) :=
  (RabbitMQSource_start_publishes_before_check (-1) [] [] [] 1 (by decide) (by decide)).2

/-! ## Theorems on the stateful-map test -/

namespace StatefulMapTest

/-- The run of `mapFun` over the generated tuples `a, a + 1, ..., a + k - 1` from a state
with sum `σ`: one output per tuple, the output with index `i` in closed form, and the sum
at the end. -/
theorem statefulMap_range (k a : Nat) (σ : ℚ) :
    (statefulMap mapFun ((List.range' a k).map (fun n => (streamGen n, false))) ⟨σ⟩).1.length
        = k
      ∧ (∀ i, i < k →
          ((statefulMap mapFun ((List.range' a k).map (fun n => (streamGen n, false)))
              ⟨σ⟩).1.map (fun r => r.1)).getD i 0
            = σ + ((i : ℚ) + 1) * (a : ℚ) + ((i : ℚ) + 1) ^ 2 / 2)
      ∧ (statefulMap mapFun ((List.range' a k).map (fun n => (streamGen n, false))) ⟨σ⟩).2.sum
        = σ + (k : ℚ) * (a : ℚ) + (k : ℚ) ^ 2 / 2 := by
  induction k generalizing a σ with
  | zero =>
    refine ⟨rfl, fun i hi => absurd hi (Nat.not_lt_zero i), ?_⟩
    simp [statefulMap]
  | succ k ih =>
    have hr : List.range' a (k + 1) = a :: List.range' (a + 1) k := rfl
    obtain ⟨h1, h2, h3⟩ := ih (a + 1) (σ + ((a : ℚ) + 1 / 2))
    rw [hr]
    simp only [List.map_cons, statefulMap, mapFun, streamGen, List.length_cons]
    simp only [mapFun, streamGen] at h1 h2 h3
    refine ⟨by rw [h1], ?_, ?_⟩
    · intro i hi
      cases i with
      | zero =>
        simp only [List.getD_cons_zero]
        push_cast
        ring
      | succ j =>
        simp only [List.getD_cons_succ]
        rw [h2 j (by omega)]
        push_cast
        ring
    · rw [h3]
      push_cast
      ring

end StatefulMapTest

/-- C13: stateful-map running sum.  With one `MySumState` (sum 0) threaded through `mapFun`
for the generated tuples `(n, n + 0.5)`, `n = 0 .. 999` in order, there is one output per
input tuple (1000 results), `results[0] = 0.5`, and `results[i] = results[i-1] + i + 0.5`
for every `1 <= i < 1000`.  Every result is the half-integer `(i + 1)^2 / 2`, at most
500000, and the state ends with the sum of all 1000 values: each value was added once. -/
theorem StatefulMapTest_running_sum :
    StatefulMapTest.run.1.length = 1000
      ∧ StatefulMapTest.results.length = 1000
      ∧ StatefulMapTest.results.getD 0 0 = 1 / 2
      ∧ (∀ i, 1 ≤ i → i < 1000 →
          StatefulMapTest.results.getD i 0
            = StatefulMapTest.results.getD (i - 1) 0 + (i : ℚ) + 1 / 2)
      ∧ (∀ i, i < 1000 → StatefulMapTest.results.getD i 0 = ((i : ℚ) + 1) ^ 2 / 2)
      ∧ StatefulMapTest.run.2.sum = 500000 := by
  obtain ⟨h1, h2, h3⟩ := StatefulMapTest.statefulMap_range 1000 0 0
  have hrun : StatefulMapTest.run
      = statefulMap StatefulMapTest.mapFun
          ((List.range' 0 1000).map (fun n => (StatefulMapTest.streamGen n, false))) ⟨0⟩ := by
    simp only [StatefulMapTest.run, streamFromGenerator, StatefulMapTest.num,
      StatefulMapTest.newState, List.range_eq_range']
  have hres : StatefulMapTest.results
      = (statefulMap StatefulMapTest.mapFun
          ((List.range' 0 1000).map (fun n => (StatefulMapTest.streamGen n, false)))
            ⟨0⟩).1.map (fun r => r.1) := by
    simp only [StatefulMapTest.results, hrun, StatefulMapTest.num]
    rw [List.take_of_length_le (le_of_eq h1)]
  have hclosed : ∀ i, i < 1000 →
      StatefulMapTest.results.getD i 0 = ((i : ℚ) + 1) ^ 2 / 2 := by
    intro i hi
    rw [hres, h2 i hi]
    push_cast
    ring
  refine ⟨by rw [hrun, h1], by rw [hres, List.length_map, h1], ?_, ?_, hclosed, ?_⟩
  · rw [hclosed 0 (by norm_num)]
    norm_num
  · intro i hi1 hi2
    rw [hclosed i hi2, hclosed (i - 1) (by omega)]
    have hcast : ((i - 1 : Nat) : ℚ) = (i : ℚ) - 1 := by
      rw [Nat.cast_sub hi1]
      norm_num
    rw [hcast]
    ring
  · rw [hrun, h3]
    norm_num

/-- Witness of C13: the second result is the first one plus `1 + 0.5`. -/
theorem StatefulMapTest_running_sum_witness :
    StatefulMapTest.results.getD 1 0
      = StatefulMapTest.results.getD (1 - 1) 0 + ((1 : Nat) : ℚ) + 1 / 2 :=
  StatefulMapTest_running_sum.2.2.2.1 1 (by decide) (by decide)

/-! ## Theorems on the grouping test -/

namespace GroupBy

theorem keySum_append_same {T K V : Type} [DecidableEq K] [Zero V] [Add V]
    (keyOf : T → K) (get : T → V) (pre : List T) (t : T) :
    keySum keyOf get (keyOf t) (pre ++ [t]) = keySum keyOf get (keyOf t) pre + get t := by
  simp [keySum, List.filter_append, List.foldl_append]

theorem keySum_append_other {T K V : Type} [DecidableEq K] [Zero V] [Add V]
    (keyOf : T → K) (get : T → V) (pre : List T) (t : T) (k : K) (h : keyOf t ≠ k) :
    keySum keyOf get k (pre ++ [t]) = keySum keyOf get k pre := by
  simp [keySum, List.filter_append, h]

/-- The invariant of `groupBy` after the tuples `pre`, all with `outdated = false`: a key
without accumulator has the sum 0, and the accumulator of a key holds its sum. -/
theorem processAll_inserts {T K V : Type} [DecidableEq K] [Zero V] [Add V] [Sub V]
    (keyOf : T → K) (get : T → V) (rest pre : List T) (g : GroupBy K V)
    (hinv : ∀ k, (g.table k = none ∧ keySum keyOf get k pre = 0)
      ∨ g.table k = some ⟨keySum keyOf get k pre⟩) :
    (processAll keyOf get (rest.map (fun t => (t, false))) g).1.length = rest.length
      ∧ ∀ i t, rest[i]? = some t →
          (processAll keyOf get (rest.map (fun t => (t, false))) g).1[i]?
            = some (keySum keyOf get (keyOf t) (pre ++ rest.take (i + 1))) := by
  induction rest generalizing pre g with
  | nil =>
    refine ⟨rfl, ?_⟩
    intro i t h
    simp at h
  | cons c rest ih =>
    have hval : (processTuple keyOf get (c, false) g).1
        = keySum keyOf get (keyOf c) (pre ++ [c]) := by
      rw [keySum_append_same]
      rcases hinv (keyOf c) with ⟨hn, hz⟩ | hs
      · simp only [processTuple, hn, AggrSum.init, AggrSum.iterate, AggrSum.value,
          Bool.false_eq_true, if_false, hz]
      · simp only [processTuple, hs, AggrSum.iterate, AggrSum.value,
          Bool.false_eq_true, if_false]
    have htab : ∀ k, (processTuple keyOf get (c, false) g).2.table k
        = if k = keyOf c then some ⟨keySum keyOf get (keyOf c) (pre ++ [c])⟩
          else g.table k := by
      intro k
      rw [← hval]
      by_cases hk : k = keyOf c
      · rw [if_pos hk, hk]
        simp [processTuple, AggrSum.value]
      · rw [if_neg hk]
        simp [processTuple, Function.update_noteq hk]
    have hinv2 : ∀ k, ((processTuple keyOf get (c, false) g).2.table k = none
          ∧ keySum keyOf get k (pre ++ [c]) = 0)
        ∨ (processTuple keyOf get (c, false) g).2.table k
          = some ⟨keySum keyOf get k (pre ++ [c])⟩ := by
      intro k
      rw [htab k]
      by_cases hk : k = keyOf c
      · rw [if_pos hk, hk]
        exact Or.inr rfl
      · rw [if_neg hk, keySum_append_other keyOf get pre c k (fun h => hk h.symm)]
        exact hinv k
    obtain ⟨h1, h2⟩ := ih (pre ++ [c]) (processTuple keyOf get (c, false) g).2 hinv2
    simp only [List.map_cons, processAll, List.length_cons]
    refine ⟨by rw [h1], ?_⟩
    intro i t hi
    cases i with
    | zero =>
      simp only [List.getElem?_cons_zero, Option.some.injEq] at hi
      simp only [List.getElem?_cons_zero, Option.some.injEq, zero_add, List.take_succ_cons,
        List.take_zero]
      rw [hval, hi]
    | succ j =>
      simp only [List.getElem?_cons_succ] at hi
      simp only [List.getElem?_cons_succ]
      rw [h2 j t hi, List.take_succ_cons, List.append_assoc, List.singleton_append]

end GroupBy

/-- C14: `groupBy` with a Sum aggregator yields running per-key sums.  For every finite
stream of inputs, all with `outdated = false`, one value is emitted per input, in input
order, and the value with index `i` is the sum (accumulated in arrival order) of the
aggregated field over the inputs up to and including `i` that have the key of input `i`.
The stream of the test, keys 0,0,0,0,0,5,6,7,8,9 with values `n + 0.5`, gives
0.5, 2, 4.5, 8, 12.5, 5.5, 6.5, 7.5, 8.5, 9.5. -/
theorem GroupBy_sum_yields_running_key_sums {T K V : Type} [DecidableEq K] [Zero V] [Add V]
    [Sub V] (keyOf : T → K) (get : T → V) (inputs : List T) :
    (GroupBy.processAll keyOf get (inputs.map (fun t => (t, false))) GroupBy.empty).1.length
        = inputs.length
      ∧ (∀ i t, inputs[i]? = some t →
          (GroupBy.processAll keyOf get (inputs.map (fun t => (t, false)))
              GroupBy.empty).1[i]?
            = some (GroupBy.keySum keyOf get (keyOf t) (inputs.take (i + 1))))
      ∧ GroupingTest.printed
        = [1 / 2, 2, 9 / 2, 8, 25 / 2, 11 / 2, 13 / 2, 15 / 2, 17 / 2, 19 / 2] := by
  have h := GroupBy.processAll_inserts keyOf get inputs [] GroupBy.empty
    (fun k => Or.inl ⟨rfl, rfl⟩)
  simp only [List.nil_append] at h
  refine ⟨h.1, h.2, ?_⟩
  simp only [GroupingTest.printed, streamFromGenerator, List.range, List.range.loop, List.map,
    GroupBy.processAll, GroupBy.processTuple, GroupBy.empty, GroupingTest.streamGen,
    AggrSum.iterate, AggrSum.init, AggrSum.value, Function.update]
  norm_num

/-- Witness of C14: the third output for the inputs (0, 1), (5, 2), (0, 4) is the sum of the
values with key 0. -/
theorem GroupBy_sum_yields_running_key_sums_witness :
    (GroupBy.processAll (fun tp : Int × Int => tp.1) (fun tp : Int × Int => tp.2)
        ([((0 : Int), (1 : Int)), (5, 2), (0, 4)].map (fun t => (t, false)))
        GroupBy.empty).1[2]?
      = some (GroupBy.keySum (fun tp : Int × Int => tp.1) (fun tp : Int × Int => tp.2)
          ((fun tp : Int × Int => tp.1) (0, 4))
          ([((0 : Int), (1 : Int)), (5, 2), (0, 4)].take (2 + 1))) :=
  (GroupBy_sum_yields_running_key_sums (fun tp : Int × Int => tp.1)
    (fun tp : Int × Int => tp.2) [((0 : Int), (1 : Int)), (5, 2), (0, 4)]).2.1 2 (0, 4) rfl

/-! ## Theorems on the partitioning test -/

/-- Taking the first tuple out of one branch takes it out of the concatenation of the
branches. -/
theorem flatten_perm_of_head {U : Type} (branches : List (List U)) (i : Nat) (x : U)
    (rest : List U) (h : branches[i]? = some (x :: rest)) :
    branches.flatten.Perm (x :: (branches.set i rest).flatten) := by
  induction branches generalizing i with
  | nil => simp at h
  | cons b bs ih =>
    cases i with
    | zero =>
      simp only [List.getElem?_cons_zero, Option.some.injEq] at h
      simp only [List.set_cons_zero, List.flatten_cons, h, List.cons_append]
      exact List.Perm.refl _
    | succ j =>
      simp only [List.getElem?_cons_succ] at h
      simp only [List.set_cons_succ, List.flatten_cons]
      exact (List.Perm.append_left b (ih j h)).trans List.perm_middle

/-- What `merge` forwards, together with what it leaves in the branches, is what the
branches held: nothing is lost and nothing is duplicated, whatever the schedule. -/
theorem merge_perm {U : Type} (schedule : List Nat) (branches : List (List U)) :
    ((merge schedule branches).1 ++ (merge schedule branches).2.flatten).Perm
      branches.flatten := by
  induction schedule generalizing branches with
  | nil => exact List.Perm.refl _
  | cons i schedule ih =>
    rcases hb : branches[i]? with _ | l
    · simp only [merge, hb]
      exact ih branches
    · cases l with
      | nil =>
        simp only [merge, hb]
        exact ih branches
      | cons x rest =>
        simp only [merge, hb, List.cons_append]
        exact ((ih (branches.set i rest)).cons x).trans (flatten_perm_of_head branches i x rest hb).symm

/-- Branches that are all empty have an empty concatenation. -/
theorem flatten_eq_nil_of_all_nil {U : Type} (branches : List (List U))
    (h : ∀ b ∈ branches, b = []) : branches.flatten = [] := by
  induction branches with
  | nil => rfl
  | cons b bs ih =>
    rw [List.flatten_cons, h b (List.mem_cons_self _ _),
      ih (fun c hc => h c (List.mem_cons_of_mem _ hc))]
    rfl

/-- The concatenation of the classes of a list under a key with values in `keys`, where
`keys` has no duplicates and holds every key that occurs, is a permutation of the list
after the per-tuple pipeline. -/
theorem classes_flatten_perm {T U : Type} (key : T → Nat) (pipe : T → Option U)
    (keys : List Nat) (hnodup : keys.Nodup) (l : List T) (hkeys : ∀ t ∈ l, key t ∈ keys) :
    ((keys.map (fun b => (l.filter (fun t => decide (key t = b))).filterMap pipe)).flatten).Perm
      (l.filterMap pipe) := by
  induction keys generalizing l with
  | nil =>
    cases l with
    | nil => exact List.Perm.refl _
    | cons t ts => exact absurd (hkeys t (List.mem_cons_self _ _)) (List.not_mem_nil _)
  | cons k ks ih =>
    have hk : k ∉ ks := (List.nodup_cons.mp hnodup).1
    have hnd : ks.Nodup := (List.nodup_cons.mp hnodup).2
    have hrest := ih hnd (l.filter (fun t => !decide (key t = k))) (by
      intro t ht
      have ht2 := List.mem_filter.mp ht
      have hmem := hkeys t ht2.1
      rcases List.mem_cons.mp hmem with h | h
      · simp [h] at ht2
      · exact h)
    have hsame : ks.map (fun b =>
          ((l.filter (fun t => !decide (key t = k))).filter
            (fun t => decide (key t = b))).filterMap pipe)
        = ks.map (fun b => (l.filter (fun t => decide (key t = b))).filterMap pipe) := by
      apply List.map_congr_left
      intro b hb
      congr 1
      rw [List.filter_filter]
      apply List.filter_congr
      intro t _
      by_cases hkb : key t = b
      · have : key t ≠ k := fun h => hk (by rw [← h, hkb]; exact hb)
        simp [hkb, this]
        intro h
        exact this (hkb.trans h)
      · simp [hkb]
    rw [hsame] at hrest
    simp only [List.map_cons, List.flatten_cons]
    refine (List.Perm.append_left _ hrest).trans ?_
    rw [← List.filterMap_append]
    apply List.Perm.filterMap
    exact List.filter_append_perm (fun t => decide (key t = k)) l

/-- A schedule that names every branch at least as often as the branch has tuples makes
`merge` forward everything: no tuple is left in a branch. -/
theorem merge_drains {U : Type} (schedule : List Nat) (branches : List (List U))
    (hcomplete : ∀ b l, branches[b]? = some l → l.length ≤ schedule.count b) :
    ∀ r ∈ (merge schedule branches).2, r = [] := by
  induction schedule generalizing branches with
  | nil =>
    intro r hr
    simp only [merge] at hr
    obtain ⟨b, hb⟩ := List.mem_iff_getElem?.mp hr
    have h := hcomplete b r hb
    simp only [List.count_nil, Nat.le_zero] at h
    exact List.length_eq_zero.mp h
  | cons i schedule ih =>
    rcases hb : branches[i]? with _ | l
    · simp only [merge, hb]
      apply ih
      intro b l hl
      have h := hcomplete b l hl
      have hne : i ≠ b := by
        intro hib
        rw [hib, hl] at hb
        exact Option.noConfusion hb
      simpa [List.count_cons, hne] using h
    · cases l with
      | nil =>
        simp only [merge, hb]
        apply ih
        intro b l hl
        by_cases hib : i = b
        · rw [hib, hl] at hb
          simp only [Option.some.injEq] at hb
          rw [hb]
          exact Nat.zero_le _
        · have h := hcomplete b l hl
          simpa [List.count_cons, hib] using h
      | cons x rest =>
        simp only [merge, hb]
        apply ih
        intro b l hl
        rw [List.getElem?_set] at hl
        by_cases hib : i = b
        · rw [if_pos hib] at hl
          have h := hcomplete i (x :: rest) hb
          rw [List.count_cons_self] at h
          simp only [List.length_cons] at h
          split at hl
          · simp only [Option.some.injEq] at hl
            rw [← hl, ← hib]
            omega
          · exact Option.noConfusion hl
        · rw [if_neg hib] at hl
          have h := hcomplete b l hl
          simpa [List.count_cons, hib] using h

/-- C15: `partitionBy(f, n)` followed by `merge` loses and duplicates nothing.  For every
finite input stream, `n > 0`, per-tuple branch pipeline and interleaving of the `n`
branches, given as a schedule that names every branch at least as often as the branch has
tuples to forward: the branches together hold each input tuple once, a tuple of branch `b`
has `f(t) mod n = b`, `merge` leaves no tuple in a branch, and the sequence observed after
`merge` is a permutation of the branch pipeline applied to the input stream.  For the test
(ids 0 .. 999, `f = id mod 5`, `n = 5`, branch keeps the even ids) the sorted results are
0, 2, ..., 998, 500 values, under every schedule that names each of the five branches at
least 100 times. -/
theorem partitionBy_merge_preserves_multiset {T U : Type} (fn : T → Nat) (n : Nat)
    (pipe : T → Option U) (stream : List T) (schedule : List Nat) (hn : 0 < n)
    (hcomplete : ∀ b, b < n →
      ((runBranches pipe (partitionBy fn n stream)).getD b []).length ≤ schedule.count b) :
    (partitionBy fn n stream).length = n
      ∧ (partitionBy fn n stream).flatten.Perm stream
      ∧ (∀ b t, t ∈ (partitionBy fn n stream).getD b [] → fn t % n = b)
      ∧ (∀ r ∈ (merge schedule (runBranches pipe (partitionBy fn n stream))).2, r = [])
      ∧ (merge schedule (runBranches pipe (partitionBy fn n stream))).1.Perm
          (stream.filterMap pipe)
      ∧ (∀ testSchedule, (∀ b, b < 5 → 100 ≤ testSchedule.count b) →
          (∀ r ∈ (PartitionTest.results testSchedule).2, r = [])
            ∧ (PartitionTest.results testSchedule).1.length = 500
            ∧ (PartitionTest.results testSchedule).1.insertionSort (fun a b => a ≤ b)
              = (List.range 500).map (fun i => 2 * i)) := by
  have hclasses : ∀ {T1 U1 : Type} (f : T1 → Nat) (m : Nat) (q : T1 → Option U1)
      (l : List T1), 0 < m →
      (runBranches q (partitionBy f m l)).flatten.Perm (l.filterMap q) := by
    intro T1 U1 f m q l hm
    have h := classes_flatten_perm (fun t => f t % m) q (List.range m) (List.nodup_range m) l
      (fun t _ => List.mem_range.mpr (Nat.mod_lt _ hm))
    simpa [runBranches, partitionBy, List.map_map, Function.comp_def] using h
  have hdrains : ∀ {T1 U1 : Type} (f : T1 → Nat) (m : Nat) (q : T1 → Option U1)
      (l : List T1) (sch : List Nat),
      (∀ b, b < m →
        ((runBranches q (partitionBy f m l)).getD b []).length ≤ sch.count b) →
      ∀ r ∈ (merge sch (runBranches q (partitionBy f m l))).2, r = [] := by
    intro T1 U1 f m q l sch hc
    apply merge_drains
    intro b r hr
    have hlen : (runBranches q (partitionBy f m l)).length = m := by
      simp [runBranches, partitionBy]
    have hb : b < m := by
      rw [← hlen]
      exact (List.getElem?_eq_some.mp hr).1
    have h := hc b hb
    rw [List.getD_eq_getElem?_getD, hr, Option.getD_some] at h
    exact h
  have hmerged : ∀ {T1 U1 : Type} (f : T1 → Nat) (m : Nat) (q : T1 → Option U1)
      (l : List T1) (sch : List Nat), 0 < m →
      (∀ b, b < m →
        ((runBranches q (partitionBy f m l)).getD b []).length ≤ sch.count b) →
      (merge sch (runBranches q (partitionBy f m l))).1.Perm (l.filterMap q) := by
    intro T1 U1 f m q l sch hm hc
    have h := merge_perm sch (runBranches q (partitionBy f m l))
    rw [flatten_eq_nil_of_all_nil _ (hdrains f m q l sch hc), List.append_nil] at h
    exact h.trans (hclasses f m q l hm)
  refine ⟨by simp [partitionBy], ?_, ?_, hdrains fn n pipe stream schedule hcomplete,
    hmerged fn n pipe stream schedule hn hcomplete, ?_⟩
  · have h := hclasses fn n (fun t => some t) stream hn
    simpa [runBranches, List.filterMap_some] using h
  · intro b t ht
    by_cases hb : b < n
    · simp only [partitionBy, List.getD_eq_getElem?_getD, List.getElem?_map,
        List.getElem?_range hb, Option.map_some', Option.getD_some] at ht
      simpa using (List.mem_filter.mp ht).2
    · simp [partitionBy, List.getD_eq_getElem?_getD, List.getElem?_eq_none (l := List.range n)
        (by simpa using Nat.le_of_not_lt hb)] at ht
  · intro testSchedule htest
    have hbranch : ∀ b, b < 5 →
        ((runBranches PartitionTest.branchPipe
          (partitionBy PartitionTest.partitionFn 5 PartitionTest.stream)).getD b []).length
          = 100 := by
      set_option maxRecDepth 1000000 in decide
    have hc : ∀ b, b < 5 →
        ((runBranches PartitionTest.branchPipe
          (partitionBy PartitionTest.partitionFn 5 PartitionTest.stream)).getD b []).length
          ≤ testSchedule.count b := by
      intro b hb
      rw [hbranch b hb]
      exact htest b hb
    have hempty := hdrains PartitionTest.partitionFn 5 PartitionTest.branchPipe
      PartitionTest.stream testSchedule hc
    have hperm := hmerged PartitionTest.partitionFn 5 PartitionTest.branchPipe
      PartitionTest.stream testSchedule (by decide) hc
    have hlist : PartitionTest.stream.filterMap PartitionTest.branchPipe
        = (List.range 500).map (fun i => 2 * i) := by
      set_option maxRecDepth 100000 in decide
    rw [hlist] at hperm
    have hperm2 : (PartitionTest.results testSchedule).1.Perm
        ((List.range 500).map (fun i => 2 * i)) := hperm
    refine ⟨hempty, by rw [hperm2.length_eq]; simp, ?_⟩
    apply List.eq_of_perm_of_sorted (r := fun a b : Nat => a ≤ b)
      ((List.perm_insertionSort _ _).trans hperm2) (List.sorted_insertionSort _ _)
    unfold List.Sorted
    rw [List.pairwise_map]
    exact (List.pairwise_le_range 500).imp (fun h => by omega)

/-- Witness of C15: the test itself, with the five branches taken in turn; the sorted
results are 0, 2, ..., 998. -/
theorem partitionBy_merge_preserves_multiset_witness :
    (PartitionTest.results PartitionTest.roundRobin).1.insertionSort (fun a b => a ≤ b)
      = (List.range 500).map (fun i => 2 * i) :=
  ((partitionBy_merge_preserves_multiset PartitionTest.partitionFn 5 PartitionTest.branchPipe
    PartitionTest.stream PartitionTest.roundRobin (by decide)
    (by set_option maxRecDepth 1000000 in decide)).2.2.2.2.2
    PartitionTest.roundRobin (by set_option maxRecDepth 1000000 in decide)).2.2

end pfabric
